import Mathlib

/-!
# UART CRC-32 calculator (`uart_crc_main.c`)

Shallow embedding of `source/uart_crc_main.c`: the CRC-32 routine (`reflect8`, `reflect32`,
`calc_crc32`) and the receive / report loop of `main`.

* 32-bit and 8-bit unsigned values are natural numbers; a reduction modulo `2 ^ 32` is written
  where a C operation can overflow (the left shift of the running CRC).
* The serial driver is not part of the source file.  The receive side is a parameter
  `polls : Nat → Option Nat`: `polls k` is the outcome of the `k`-th call of `sciIsRxReady`,
  `none` when no byte is pending and `some b` when `sciReceiveByte` then returns `b`.
  The transmit side is the list `State.sent` of characters handed to `sciSendByte`.
* The inner `while` loop of `main` runs on fuel; `collectLoop_terminates` shows that the fuel
  `COLLECT_FUEL` used by `mainCycle` is never exhausted.
-/

set_option maxRecDepth 100000

namespace UartCrc

/-! ## CRC-32 -/

/-- Capacity of `rx_data` (`#define MAX_DATA_LEN 4096`). -/
def MAX_DATA_LEN : Nat := 4096

/-- Generator polynomial (`#define POLYNOMIAL 0x04C11DB7`). -/
def POLYNOMIAL : Nat := 0x04C11DB7

/-- Initial CRC register (`#define INIT_CRC 0xFFFFFFFF`). -/
def INIT_CRC : Nat := 0xFFFFFFFF

/-- Final XOR mask (`#define FINAL_XOR 0xFFFFFFFF`). -/
def FINAL_XOR : Nat := 0xFFFFFFFF

/-- Source `reflect8`: `for (i = 0; i < 8; i++) res |= ((data >> i) & 1) << (7 - i);`
starting from `res = 0`.  Every term is below 256, so the `uint8_t` result never wraps. -/
def reflect8 (data : Nat) : Nat :=
  (List.range 8).foldl (fun res i => res ||| (((data >>> i) &&& 1) <<< (7 - i))) 0

/-- Source `reflect32`: `for (i = 0; i < 32; i++) res |= ((data >> i) & 1) << (31 - i);`
starting from `res = 0`. -/
def reflect32 (data : Nat) : Nat :=
  (List.range 32).foldl (fun res i => res ||| (((data >>> i) &&& 1) <<< (31 - i))) 0

/-- Body of the inner `j` loop of `calc_crc32`:
`crc = (crc & 0x80000000) ? (crc << 1) ^ POLYNOMIAL : (crc << 1);` on a `uint32_t`. -/
def crc_shift (crc : Nat) : Nat :=
  if crc &&& 0x80000000 ≠ 0 then ((crc <<< 1) % 2 ^ 32) ^^^ POLYNOMIAL else (crc <<< 1) % 2 ^ 32

/-- Body of the outer `i` loop of `calc_crc32` for the byte `b = data[i]`:
`crc ^= ((uint32_t)reflect8(data[i])) << 24;` followed by eight rounds of `crc_shift`. -/
def crc_byte (crc b : Nat) : Nat :=
  (List.range 8).foldl (fun c _ => crc_shift c) (crc ^^^ (reflect8 b <<< 24))

/-- Source `calc_crc32(data, len)`, the buffer given as the list of its `len` bytes:
`crc = INIT_CRC`, one `crc_byte` per byte in order, `return reflect32(crc) ^ FINAL_XOR`. -/
def calc_crc32 (data : List Nat) : Nat :=
  reflect32 (data.foldl crc_byte INIT_CRC) ^^^ FINAL_XOR

/-! ### The reflected bit-serial reference (written from the specification) -/

/-- Reference bit step: `(crc >> 1) XOR 0xEDB88320` if the low bit of `crc` is set,
else `crc >> 1`. -/
def reference_shift (crc : Nat) : Nat :=
  if crc &&& 1 ≠ 0 then (crc >>> 1) ^^^ 0xEDB88320 else crc >>> 1

/-- Reference byte step: `crc := crc XOR b`, then eight reference bit steps. -/
def reference_byte (crc b : Nat) : Nat :=
  (List.range 8).foldl (fun c _ => reference_shift c) (crc ^^^ b)

/-- Standard CRC-32 (Ethernet / IEEE 802.3) in its usual reflected form: start from
`0xFFFFFFFF`, one reference byte step per byte, result XOR `0xFFFFFFFF`. -/
def crc32_reference (data : List Nat) : Nat :=
  data.foldl reference_byte 0xFFFFFFFF ^^^ 0xFFFFFFFF

/-! ## Text output -/

/-- The C string terminator. -/
def NUL : Char := Char.ofNat 0

/-- Memory image of a C string literal: its characters followed by the terminator. -/
def cstr (s : String) : List Char := s.toList ++ [NUL]

/-- C library `strlen`: number of characters before the first terminator. -/
def strlen (text : List Char) : Nat := (text.takeWhile (fun c => c != NUL)).length

/-- Modelled from the spec: `sciSendByte` of the serial driver is not in the source file; the
spec's sink `sendBytes` receives the characters in the order they are sent, so sending appends
one character to the transmitted text. -/
def sciSendByte (sent : List Char) (c : Char) : List Char := sent ++ [c]

/-- Source `sciDisplayText`: `length = strlen(text); while (length--) sciSendByte(sci, *text++);`
where `text` is the memory content from the pointer on. -/
def sciDisplayText (sent text : List Char) : List Char :=
  (text.take (strlen text)).foldl sciSendByte sent

/-- Upper-case hexadecimal digit of a value below 16. -/
def hexDigitUpper (d : Nat) : Char :=
  if d < 10 then Char.ofNat (48 + d) else Char.ofNat (55 + d)

/-- The eight zero-padded upper-case hexadecimal digits of a 32-bit value, most significant
digit first. -/
def hex8 (v : Nat) : List Char :=
  (List.range 8).map (fun i => hexDigitUpper (v / 16 ^ (7 - i) % 16))

/-- Modelled from the spec: the C library `sprintf` is not in the source file; with the format
`%08X` and a 32-bit argument it writes the eight zero-padded upper-case hexadecimal digits and
the terminator (nine bytes, the size of `crc_formatBuffer`). -/
def sprintf_08X (v : Nat) : List Char := hex8 v ++ [NUL]

/-! ## The receive / report loop of `main` -/

/-- Content of `uint8_t rx_data[MAX_DATA_LEN]`. -/
abbrev RxBuffer : Type := { l : List Nat // l.length = MAX_DATA_LEN }

/-- The zero-initialised global array. -/
def RxBuffer.zero : RxBuffer := ⟨List.replicate MAX_DATA_LEN 0, List.length_replicate _ _⟩

/-- Store `rx_data[i] = v`; the value is converted to `uint8_t`. -/
def RxBuffer.write (buf : RxBuffer) (i v : Nat) : RxBuffer :=
  ⟨buf.1.set i (v % 256), by rw [List.length_set]; exact buf.2⟩

/-- Variables of `main` together with what it has consumed and produced so far. -/
structure State where
  /-- Global `rx_data`. -/
  rx_data : RxBuffer
  /-- Global `rx_count`. -/
  rx_count : Nat
  /-- Local `crc_value` of `main`, the last computed CRC. -/
  crc_value : Nat
  /-- Memory content from the address of the local `crc_formatBuffer` on. -/
  crc_formatBuffer : List Char
  /-- Local `idle_counter` of `main`. -/
  idle_counter : Nat
  /-- Number of polls of the byte source made so far. -/
  polled : Nat
  /-- Total of the `delay_ms` arguments so far, in milliseconds. -/
  slept_ms : Nat
  /-- Characters handed to `sciSendByte` so far. -/
  sent : List Char
  /-- Arguments of the calls of `calc_crc32` made so far (bookkeeping only). -/
  crc_calls : List (List Nat)

/-- Source `delay_ms(ms)`: busy-waits `ms` milliseconds. -/
def delay_ms (slept ms : Nat) : Nat := slept + ms

/-- The frame `rx_data[0 .. rx_count - 1]` that `main` passes to `calc_crc32`. -/
def frame (s : State) : List Nat := s.rx_data.1.take s.rx_count

/-- Condition of the inner loop: `idle_counter < 500 && rx_count < MAX_DATA_LEN`. -/
def collectGuard (s : State) : Bool :=
  decide (s.idle_counter < 500) && decide (s.rx_count < MAX_DATA_LEN)

/-- Body of the inner loop: `if (sciIsRxReady) { rx_data[rx_count++] = sciReceiveByte();
idle_counter = 0; } else { delay_ms(1); idle_counter++; }`. -/
def collectStep (polls : Nat → Option Nat) (s : State) : State :=
  match polls s.polled with
  | some b =>
    { s with rx_data := s.rx_data.write s.rx_count b, rx_count := s.rx_count + 1,
             idle_counter := 0, polled := s.polled + 1 }
  | none =>
    { s with slept_ms := delay_ms s.slept_ms 1, idle_counter := s.idle_counter + 1,
             polled := s.polled + 1 }

/-- The inner `while` loop with a bound on the number of iterations; `none` when the bound is
reached while the loop condition still holds. -/
def collectLoop (polls : Nat → Option Nat) : Nat → State → Option State
  | 0, s => if collectGuard s then none else some s
  | fuel + 1, s =>
    if collectGuard s then collectLoop polls fuel (collectStep polls s) else some s

/-- Iteration bound used for one cycle. -/
def COLLECT_FUEL : Nat := MAX_DATA_LEN * 500

/-- Start of a cycle: `rx_count = 0; idle_counter = 0;` and the ready prompt. -/
def cycleStart (s : State) : State :=
  { s with rx_count := 0, idle_counter := 0,
           sent := sciDisplayText s.sent (cstr "UART Ready. Send data...\r\n") }

/-- The `if (0 < rx_count) ... else ...` statement after the inner loop. -/
def report (s : State) : State :=
  if 0 < s.rx_count then
    let crc := calc_crc32 (frame s)
    let buf := sprintf_08X crc
    { s with crc_value := crc, crc_calls := s.crc_calls ++ [frame s], crc_formatBuffer := buf,
             sent := sciDisplayText (sciDisplayText (sciDisplayText s.sent
                (cstr "Updated CRC in Hex is : 0x")) buf) (cstr "\r\n") }
  else
    { s with sent := sciDisplayText (sciDisplayText (sciDisplayText s.sent
                (cstr "No Data Received, Last Calculated CRC in Hex is : 0x"))
                s.crc_formatBuffer) (cstr "\r\n") }

/-- One pass through the body of `while (1)`. -/
def mainCycle (polls : Nat → Option Nat) (s : State) : Option State :=
  (collectLoop polls COLLECT_FUEL (cycleStart s)).map report

/-- State of `main` when it enters `while (1)`: `crc_value = 0xFFFFFFFF`, `idle_counter = 0`,
the banner sent, and `crc_formatBuffer` not initialised: `stack` is whatever the memory at its
address holds. -/
def mainInit (stack : List Char) : State :=
  { rx_data := RxBuffer.zero, rx_count := 0, crc_value := 0xFFFFFFFF, crc_formatBuffer := stack,
    idle_counter := 0, polled := 0, slept_ms := 0,
    sent := sciDisplayText [] (cstr "Sequential CRC Calculator Started\r\n"), crc_calls := [] }

/-- The first `n` cycles of `while (1)`. -/
def mainLoop (polls : Nat → Option Nat) : Nat → State → Option State
  | 0, s => some s
  | n + 1, s => (mainCycle polls s).bind (mainLoop polls n)

/-- The frame collected by the cycle that starts in state `s`. -/
def cycleFrame (polls : Nat → Option Nat) (s : State) : Option (List Nat) :=
  (collectLoop polls COLLECT_FUEL (cycleStart s)).map frame

/-! ## Auxiliary notions used in the statements and proofs -/

/-- Number of loop iterations still possible from a state. -/
def collectBudget (s : State) : Nat :=
  if collectGuard s then (4095 - s.rx_count) * 500 + (500 - s.idle_counter) else 0

/-- The fields the collection loop never touches. -/
def sameReportState (s c : State) : Prop :=
  c.crc_value = s.crc_value ∧ c.crc_formatBuffer = s.crc_formatBuffer ∧ c.sent = s.sent ∧
    c.crc_calls = s.crc_calls

/-- State after `g` consecutive empty polls. -/
def idleBy (s : State) (g : Nat) : State :=
  { s with slept_ms := s.slept_ms + g, idle_counter := s.idle_counter + g,
           polled := s.polled + g }

/-- From poll `p` on, the source delivers the bytes listed in `gbs` in order, the byte `gb.2`
after `gb.1` empty polls. -/
def deliversFrom (polls : Nat → Option Nat) : Nat → List (Nat × Nat) → Prop
  | _, [] => True
  | p, gb :: rest =>
    (∀ j, j < gb.1 → polls (p + j) = none) ∧ polls (p + gb.1) = some gb.2 ∧
      deliversFrom polls (p + gb.1 + 1) rest

/-- Number of polls that `deliversFrom` describes. -/
def pollCount : List (Nat × Nat) → Nat
  | [] => 0
  | gb :: rest => gb.1 + 1 + pollCount rest

/-- Bytes returned by the successful polls among polls `p`, ..., `p + n - 1`, in order. -/
def received (polls : Nat → Option Nat) (p n : Nat) : List Nat :=
  (List.range n).filterMap (fun k => polls (p + k))

/-- A run of 500 consecutive empty polls starts at poll `k`. -/
def idleRunAt (polls : Nat → Option Nat) (k : Nat) : Prop :=
  ∀ j, j < 500 → polls (k + j) = none

/-- Loop invariant of the collection loop of a cycle that started at poll `p`. -/
structure CollectInv (polls : Nat → Option Nat) (p : Nat) (s : State) : Prop where
  start_le : p ≤ s.polled
  frame_eq : frame s = received polls p (s.polled - p)
  count_eq : s.rx_count = (received polls p (s.polled - p)).length
  count_le : s.rx_count ≤ 4096
  idle_le : s.idle_counter ≤ 500
  idle_polls : s.idle_counter ≤ s.polled - p
  tail_silent : ∀ k, s.polled - s.idle_counter ≤ k → k < s.polled → polls k = none
  no_earlier_run : ∀ k, p ≤ k → k + s.idle_counter < s.polled → ¬ idleRunAt polls k
  timeout_room : s.idle_counter = 500 → s.rx_count < 4096
  full_fresh : s.rx_count = 4096 →
    s.idle_counter = 0 ∧ ∀ m, m < s.polled - p → (received polls p m).length < 4096

/-- Byte source that delivers the single byte 0x41 and then stays silent. -/
def pollsA : Nat → Option Nat := fun n => if n = 0 then some 0x41 else none

/-- Byte source that never delivers a byte. -/
def pollsSilent : Nat → Option Nat := fun _ => none

/-- Byte source of 5000 back-to-back bytes 0x41 followed by silence. -/
def polls5000 : Nat → Option Nat := fun n => if n < 5000 then some 0x41 else none

/-- Repeated reference bit steps, one per element of `l`. -/
def reference_shifts (l : List Nat) (c : Nat) : Nat :=
  l.foldl (fun c _ => reference_shift c) c

/-- State after `j` iterations of the collection loop of the cycle that starts in `s`. -/
def collectState (polls : Nat → Option Nat) (s : State) (j : Nat) : State :=
  Nat.iterate (collectStep polls) j (cycleStart s)

/-- The frames collected by the first `n` cycles from state `s`, in cycle order. -/
def framesOf (polls : Nat → Option Nat) : Nat → State → Option (List (List Nat))
  | 0, _ => some []
  | n + 1, s =>
    (cycleFrame polls s).bind (fun F =>
      (mainCycle polls s).bind (fun s' => (framesOf polls n s').map (fun Fs => F :: Fs)))

/-- The formatted text in `crc_formatBuffer` and `crc_value` both come from the most recent
call of `calc_crc32`, when there was one. -/
def bufferTracksCrc (s : State) : Prop :=
  ∀ F, s.crc_calls.getLast? = some F →
    s.crc_value = calc_crc32 F ∧ s.crc_formatBuffer = sprintf_08X (calc_crc32 F)

/-! ## Bit reflection and the CRC register -/

theorem testBit_reflect_fold (m data : Nat) (l : List Nat) (r k : Nat) :
    (l.foldl (fun res i => res ||| (((data >>> i) &&& 1) <<< (m - i))) r).testBit k
      = (r.testBit k || l.any (fun i => decide (m - i = k) && data.testBit i)) := by
  induction l generalizing r with
  | nil => simp
  | cons i l ih =>
    rw [List.foldl_cons, ih, Nat.testBit_or, Nat.testBit_shiftLeft, Nat.testBit_and,
      Nat.testBit_shiftRight, List.any_cons, Bool.or_assoc]
    congr 1
    congr 1
    by_cases h : m - i = k
    · subst h
      simp
    · have h1 : Nat.testBit 1 (k - (m - i)) = true ↔ k - (m - i) = 0 :=
        Nat.testBit_one_eq_true_iff_self_eq_zero
      by_cases h2 : k ≥ m - i
      · have h3 : ¬ (k - (m - i) = 0) := by omega
        have h4 : Nat.testBit 1 (k - (m - i)) = false := by
          simpa using (not_congr h1).mpr h3
        simp [h, h4]
      · simp [h, h2]

theorem testBit_reflect32 (x k : Nat) :
    (reflect32 x).testBit k = (decide (k < 32) && x.testBit (31 - k)) := by
  unfold reflect32
  rw [testBit_reflect_fold, Nat.zero_testBit, Bool.false_or, Bool.eq_iff_iff]
  simp only [List.any_eq_true, List.mem_range, Bool.and_eq_true, decide_eq_true_eq]
  constructor
  · rintro ⟨i, hi, hk, hx⟩
    have : 31 - k = i := by omega
    exact ⟨by omega, this ▸ hx⟩
  · rintro ⟨hk, hx⟩
    exact ⟨31 - k, by omega, by omega, hx⟩

theorem testBit_reflect8 (x k : Nat) :
    (reflect8 x).testBit k = (decide (k < 8) && x.testBit (7 - k)) := by
  unfold reflect8
  rw [testBit_reflect_fold, Nat.zero_testBit, Bool.false_or, Bool.eq_iff_iff]
  simp only [List.any_eq_true, List.mem_range, Bool.and_eq_true, decide_eq_true_eq]
  constructor
  · rintro ⟨i, hi, hk, hx⟩
    have : 7 - k = i := by omega
    exact ⟨by omega, this ▸ hx⟩
  · rintro ⟨hk, hx⟩
    exact ⟨7 - k, by omega, by omega, hx⟩

theorem reflect32_xor (a b : Nat) : reflect32 (a ^^^ b) = reflect32 a ^^^ reflect32 b := by
  apply Nat.eq_of_testBit_eq
  intro k
  simp only [testBit_reflect32, Nat.testBit_xor]
  by_cases h : k < 32 <;> simp [h]

theorem reflect32_shift_left (x : Nat) : reflect32 ((x <<< 1) % 2 ^ 32) = reflect32 x >>> 1 := by
  apply Nat.eq_of_testBit_eq
  intro k
  simp only [testBit_reflect32, Nat.testBit_shiftRight, Nat.testBit_mod_two_pow,
    Nat.testBit_shiftLeft]
  by_cases h : k < 31
  · have e : 31 - k - 1 = 31 - (1 + k) := by omega
    have h1 : 31 - k < 32 := by omega
    have h2 : 31 - k ≥ 1 := by omega
    have h3 : k < 32 := by omega
    have h4 : 1 + k < 32 := by omega
    simp [h1, h2, h3, h4, e]
  · by_cases h5 : k = 31
    · subst h5; simp
    · have h3 : ¬ k < 32 := by omega
      have h4 : ¬ 1 + k < 32 := by omega
      simp [h3, h4]

theorem top_bit_iff (x : Nat) : x &&& 0x80000000 ≠ 0 ↔ x.testBit 31 = true := by
  have e : (0x80000000 : Nat) = 2 ^ 31 := by norm_num
  rw [e, Nat.and_two_pow]
  cases h : x.testBit 31 <;> simp

theorem low_bit_iff (x : Nat) : x &&& 1 ≠ 0 ↔ x.testBit 0 = true := by
  rw [Nat.and_one_is_mod, Nat.testBit_zero]
  simp

theorem reflect32_POLYNOMIAL : reflect32 POLYNOMIAL = 0xEDB88320 := by decide

theorem reflect32_INIT_CRC : reflect32 INIT_CRC = 0xFFFFFFFF := by decide

theorem reflect32_crc_shift (x : Nat) : reflect32 (crc_shift x) = reference_shift (reflect32 x) := by
  have hb : (x &&& 0x80000000 ≠ 0) ↔ (reflect32 x &&& 1 ≠ 0) := by
    rw [top_bit_iff, low_bit_iff, testBit_reflect32]
    simp
  unfold crc_shift reference_shift
  by_cases h : x &&& 0x80000000 ≠ 0
  · rw [if_pos h, if_pos (hb.mp h), reflect32_xor, reflect32_shift_left, reflect32_POLYNOMIAL]
  · rw [if_neg h, if_neg (fun h2 => h (hb.mpr h2)), reflect32_shift_left]

theorem reflect32_shift_iter (l : List Nat) (c : Nat) :
    reflect32 (l.foldl (fun c _ => crc_shift c) c)
      = l.foldl (fun c _ => reference_shift c) (reflect32 c) := by
  induction l generalizing c with
  | nil => rfl
  | cons _ l ih => simp only [List.foldl_cons, ih, reflect32_crc_shift]

theorem reflect32_reflect8_shift : ∀ b < 256, reflect32 (reflect8 b <<< 24) = b := by decide

theorem reflect32_crc_byte (c b : Nat) (hb : b < 256) :
    reflect32 (crc_byte c b) = reference_byte (reflect32 c) b := by
  unfold crc_byte reference_byte
  rw [reflect32_shift_iter, reflect32_xor, reflect32_reflect8_shift b hb]

theorem reflect32_fold_crc_byte (data : List Nat) (hd : ∀ b ∈ data, b < 256) (c : Nat) :
    reflect32 (data.foldl crc_byte c) = data.foldl reference_byte (reflect32 c) := by
  induction data generalizing c with
  | nil => rfl
  | cons b data ih =>
    rw [List.foldl_cons, List.foldl_cons, ih (fun x hx => hd x (List.mem_cons_of_mem _ hx)),
      reflect32_crc_byte c b (hd b (List.mem_cons_self _ _))]

theorem calc_crc32_fold_reference (data : List Nat) (hd : ∀ b ∈ data, b < 256) :
    calc_crc32 data = crc32_reference data := by
  unfold calc_crc32 crc32_reference
  rw [reflect32_fold_crc_byte data hd, reflect32_INIT_CRC]
  rfl

/-! ## Claims about `calc_crc32` -/

/-- C1: for every byte sequence, of any length, `calc_crc32` equals the standard CRC-32
(Ethernet / IEEE 802.3) checksum computed by the usual reflected bit-serial reference
(start `0xFFFFFFFF`, XOR each byte in, eight right-shift steps with `0xEDB88320`, final XOR
`0xFFFFFFFF`). -/
theorem calc_crc32_eq_crc32_reference (data : List Nat) (hd : ∀ b ∈ data, b < 256) :
    calc_crc32 data = crc32_reference data :=
  calc_crc32_fold_reference data hd

theorem calc_crc32_eq_crc32_reference_witness :
    (∀ b ∈ [0x00, 0x41, 0xFF], b < 256) ∧
      calc_crc32 [0x00, 0x41, 0xFF] = crc32_reference [0x00, 0x41, 0xFF] :=
  ⟨by decide, calc_crc32_eq_crc32_reference [0x00, 0x41, 0xFF] (by decide)⟩

/-- C2: `calc_crc32` of the nine ASCII bytes of `123456789` is the CRC-32 (Ethernet) check
value `0xCBF43926`. -/
theorem calc_crc32_check_value :
    calc_crc32 [0x31, 0x32, 0x33, 0x34, 0x35, 0x36, 0x37, 0x38, 0x39] = 0xCBF43926 := by
  decide

/-- C3: on the empty sequence `calc_crc32` runs its byte loop zero times, so the register is
still `INIT_CRC`, and it returns `reflect32 0xFFFFFFFF ^^^ 0xFFFFFFFF`, which is `0x00000000`. -/
theorem calc_crc32_empty :
    ([] : List Nat).foldl crc_byte INIT_CRC = INIT_CRC ∧
      calc_crc32 [] = reflect32 0xFFFFFFFF ^^^ 0xFFFFFFFF ∧
      reflect32 0xFFFFFFFF ^^^ 0xFFFFFFFF = 0x00000000 :=
  ⟨rfl, rfl, by decide⟩

/-! ### Text output helpers -/

theorem takeWhile_until_NUL (l rest : List Char) (h : ∀ c ∈ l, c ≠ NUL) :
    (l ++ NUL :: rest).takeWhile (fun c => c != NUL) = l := by
  induction l with
  | nil => simp [List.takeWhile]
  | cons a l ih =>
    have ha : a ≠ NUL := h a (List.mem_cons_self _ _)
    have hl : ∀ c ∈ l, c ≠ NUL := fun c hc => h c (List.mem_cons_of_mem _ hc)
    have hne : (a != NUL) = true := by simpa using ha
    rw [List.cons_append, List.takeWhile_cons, hne, ih hl]
    rfl

theorem foldl_sciSendByte (l sent : List Char) : l.foldl sciSendByte sent = sent ++ l := by
  induction l generalizing sent with
  | nil => simp
  | cons a l ih => rw [List.foldl_cons, ih, sciSendByte, List.append_assoc]; rfl

theorem sciDisplayText_eq (sent text : List Char) :
    sciDisplayText sent text = sent ++ text.take (strlen text) :=
  foldl_sciSendByte _ _

theorem sciDisplayText_until_NUL (sent l rest : List Char) (h : ∀ c ∈ l, c ≠ NUL) :
    sciDisplayText sent (l ++ NUL :: rest) = sent ++ l := by
  rw [sciDisplayText_eq]
  unfold strlen
  rw [takeWhile_until_NUL l rest h]
  simp

theorem sciDisplayText_cstr (sent : List Char) (lit : String) (h : ∀ c ∈ lit.toList, c ≠ NUL) :
    sciDisplayText sent (cstr lit) = sent ++ lit.toList :=
  sciDisplayText_until_NUL sent lit.toList [] h

theorem hexDigitUpper_ne_NUL (d : Nat) : hexDigitUpper (d % 16) ≠ NUL := by
  have h : ∀ e < 16, hexDigitUpper e ≠ NUL := by decide
  exact h _ (Nat.mod_lt _ (by norm_num))

theorem hex8_no_NUL (v : Nat) : ∀ c ∈ hex8 v, c ≠ NUL := by
  intro c hc
  unfold hex8 at hc
  rw [List.mem_map] at hc
  obtain ⟨i, _, rfl⟩ := hc
  exact hexDigitUpper_ne_NUL _

theorem sciDisplayText_sprintf (sent : List Char) (v : Nat) :
    sciDisplayText sent (sprintf_08X v) = sent ++ hex8 v :=
  sciDisplayText_until_NUL sent (hex8 v) [] (hex8_no_NUL v)

theorem hex8_length (v : Nat) : (hex8 v).length = 8 := by
  simp [hex8]

theorem READY_no_NUL : ∀ c ∈ "UART Ready. Send data...\r\n".toList, c ≠ NUL := by decide
theorem UPDATED_no_NUL : ∀ c ∈ "Updated CRC in Hex is : 0x".toList, c ≠ NUL := by decide
theorem NODATA_no_NUL :
    ∀ c ∈ "No Data Received, Last Calculated CRC in Hex is : 0x".toList, c ≠ NUL := by decide
theorem CRLF_no_NUL : ∀ c ∈ "\r\n".toList, c ≠ NUL := by decide

/-! ### The collection loop -/

theorem collectLoop_exit (polls : Nat → Option Nat) (fuel : Nat) (s : State)
    (h : collectGuard s = false) : collectLoop polls fuel s = some s := by
  cases fuel <;> simp [collectLoop, h]

theorem collectLoop_step (polls : Nat → Option Nat) (fuel : Nat) (s : State)
    (h : collectGuard s = true) :
    collectLoop polls (fuel + 1) s = collectLoop polls fuel (collectStep polls s) := by
  simp [collectLoop, h]

theorem collectGuard_iff (s : State) :
    collectGuard s = true ↔ s.idle_counter < 500 ∧ s.rx_count < 4096 := by
  simp [collectGuard, MAX_DATA_LEN]

theorem collectGuard_false_iff (s : State) :
    collectGuard s = false ↔ 500 ≤ s.idle_counter ∨ 4096 ≤ s.rx_count := by
  rw [← Bool.not_eq_true, collectGuard_iff]
  omega

/-- Invariant rule for the collection loop. -/
theorem collectLoop_invariant (polls : Nat → Option Nat) (P : State → Prop)
    (hstep : ∀ t, P t → collectGuard t = true → P (collectStep polls t))
    (fuel : Nat) (s c : State) (hs : P s) (hc : collectLoop polls fuel s = some c) :
    P c ∧ collectGuard c = false := by
  induction fuel generalizing s with
  | zero =>
    by_cases g : collectGuard s = true
    · simp [collectLoop, g] at hc
    · simp [collectLoop, g] at hc
      subst hc
      exact ⟨hs, by simpa using g⟩
  | succ fuel ih =>
    by_cases g : collectGuard s = true
    · rw [collectLoop_step polls fuel s g] at hc
      exact ih _ (hstep s hs g) hc
    · simp [collectLoop, g] at hc
      subst hc
      exact ⟨hs, by simpa using g⟩

theorem collectBudget_step (polls : Nat → Option Nat) (s : State) (g : collectGuard s = true) :
    collectBudget (collectStep polls s) + 1 ≤ collectBudget s := by
  have hg := (collectGuard_iff s).mp g
  unfold collectBudget
  rw [if_pos g]
  split
  · rename_i g2
    have hg2 := (collectGuard_iff _).mp g2
    unfold collectStep at hg2 ⊢
    cases hp : polls s.polled with
    | none => simp only [hp] at hg2 ⊢; omega
    | some b => simp only [hp] at hg2 ⊢; omega
  · omega

theorem collectLoop_terminates (polls : Nat → Option Nat) (fuel : Nat) (s : State)
    (h : collectBudget s ≤ fuel) : ∃ c, collectLoop polls fuel s = some c := by
  induction fuel generalizing s with
  | zero =>
    by_cases g : collectGuard s = true
    · have hg := (collectGuard_iff s).mp g
      unfold collectBudget at h
      rw [if_pos g] at h
      omega
    · exact ⟨s, collectLoop_exit polls 0 s (by simpa using g)⟩
  | succ fuel ih =>
    by_cases g : collectGuard s = true
    · rw [collectLoop_step polls fuel s g]
      have := collectBudget_step polls s g
      exact ih _ (by omega)
    · exact ⟨s, collectLoop_exit polls _ s (by simpa using g)⟩

theorem collectBudget_cycleStart (s : State) : collectBudget (cycleStart s) ≤ COLLECT_FUEL := by
  unfold collectBudget
  split
  · simp [cycleStart, COLLECT_FUEL, MAX_DATA_LEN]
  · exact Nat.zero_le _

theorem cycle_collect_terminates (polls : Nat → Option Nat) (s : State) :
    ∃ c, collectLoop polls COLLECT_FUEL (cycleStart s) = some c :=
  collectLoop_terminates polls COLLECT_FUEL _ (collectBudget_cycleStart s)

/-! ### One loop iteration -/

theorem take_succ_set (l : List Nat) (n v : Nat) (h : n < l.length) :
    (l.set n v).take (n + 1) = l.take n ++ [v] := by
  induction l generalizing n with
  | nil => simp at h
  | cons a l ih =>
    cases n with
    | zero => simp
    | succ n =>
      have h2 : n < l.length := by simpa using h
      simp [ih n h2]

theorem collectStep_none (polls : Nat → Option Nat) (s : State) (hp : polls s.polled = none) :
    collectStep polls s =
      { s with slept_ms := s.slept_ms + 1, idle_counter := s.idle_counter + 1,
               polled := s.polled + 1 } := by
  simp [collectStep, hp, delay_ms]

theorem collectStep_some (polls : Nat → Option Nat) (s : State) (b : Nat)
    (hp : polls s.polled = some b) :
    collectStep polls s =
      { s with rx_data := s.rx_data.write s.rx_count b, rx_count := s.rx_count + 1,
               idle_counter := 0, polled := s.polled + 1 } := by
  simp [collectStep, hp]

theorem frame_collectStep_none (polls : Nat → Option Nat) (s : State)
    (hp : polls s.polled = none) : frame (collectStep polls s) = frame s := by
  rw [collectStep_none polls s hp]
  rfl

theorem frame_collectStep_some (polls : Nat → Option Nat) (s : State) (b : Nat)
    (hp : polls s.polled = some b) (hc : s.rx_count < 4096) :
    frame (collectStep polls s) = frame s ++ [b % 256] := by
  rw [collectStep_some polls s b hp]
  have hl : s.rx_count < s.rx_data.1.length := by
    rw [s.rx_data.2]
    exact hc
  exact take_succ_set s.rx_data.1 s.rx_count (b % 256) hl

theorem frame_length (s : State) (h : s.rx_count ≤ 4096) : (frame s).length = s.rx_count := by
  unfold frame
  rw [List.length_take, s.rx_data.2]
  exact Nat.min_eq_left h

theorem frame_eq_nil_iff (s : State) : frame s = [] ↔ s.rx_count = 0 := by
  unfold frame
  rw [← List.length_eq_zero, List.length_take, s.rx_data.2]
  simp [MAX_DATA_LEN]

theorem collectStep_sameReportState (polls : Nat → Option Nat) (s : State) :
    sameReportState s (collectStep polls s) := by
  unfold collectStep sameReportState
  cases polls s.polled <;> simp

theorem collectLoop_sameReportState (polls : Nat → Option Nat) (fuel : Nat) (s c : State)
    (hc : collectLoop polls fuel s = some c) : sameReportState s c := by
  refine (collectLoop_invariant polls (fun t => sameReportState s t) ?_ fuel s c
    ⟨rfl, rfl, rfl, rfl⟩ hc).1
  intro t ht _
  obtain ⟨h1, h2, h3, h4⟩ := collectStep_sameReportState polls t
  obtain ⟨k1, k2, k3, k4⟩ := ht
  exact ⟨h1.trans k1, h2.trans k2, h3.trans k3, h4.trans k4⟩

/-! ### Idle polls -/

theorem collectLoop_idle_run (polls : Nat → Option Nat) (g fuel : Nat) (s : State)
    (hp : ∀ j, j < g → polls (s.polled + j) = none)
    (hi : s.idle_counter + g ≤ 500) (hc : s.rx_count < 4096) :
    collectLoop polls (fuel + g) s = collectLoop polls fuel (idleBy s g) := by
  induction g generalizing s with
  | zero => rfl
  | succ g ih =>
    have hg : collectGuard s = true := (collectGuard_iff s).mpr ⟨by omega, hc⟩
    have h0 : polls s.polled = none := by simpa using hp 0 (Nat.succ_pos g)
    rw [← Nat.add_assoc, collectLoop_step polls (fuel + g) s hg, collectStep_none polls s h0]
    have e := ih { s with slept_ms := s.slept_ms + 1, idle_counter := s.idle_counter + 1,
                          polled := s.polled + 1 }
      (by
        intro j hj
        have := hp (1 + j) (by omega)
        simpa [Nat.add_assoc] using this)
      (by simp only; omega) hc
    rw [e]
    simp only [idleBy, Nat.add_assoc, Nat.add_comm 1 g]

/-! ### The report step -/

theorem report_nonempty (c : State) (h : 0 < c.rx_count) :
    (report c).crc_value = calc_crc32 (frame c) ∧
    (report c).crc_formatBuffer = sprintf_08X (calc_crc32 (frame c)) ∧
    (report c).crc_calls = c.crc_calls ++ [frame c] ∧
    (report c).sent = c.sent ++ "Updated CRC in Hex is : 0x".toList
      ++ hex8 (calc_crc32 (frame c)) ++ "\r\n".toList := by
  unfold report
  rw [if_pos h]
  refine ⟨rfl, rfl, rfl, ?_⟩
  simp only
  rw [sciDisplayText_cstr _ _ UPDATED_no_NUL, sciDisplayText_sprintf,
    sciDisplayText_cstr _ _ CRLF_no_NUL]

theorem report_empty (c : State) (h : c.rx_count = 0) :
    (report c).crc_value = c.crc_value ∧
    (report c).crc_formatBuffer = c.crc_formatBuffer ∧
    (report c).crc_calls = c.crc_calls ∧
    (report c).sent = c.sent ++ "No Data Received, Last Calculated CRC in Hex is : 0x".toList
      ++ c.crc_formatBuffer.take (strlen c.crc_formatBuffer) ++ "\r\n".toList := by
  unfold report
  rw [if_neg (by omega)]
  refine ⟨rfl, rfl, rfl, ?_⟩
  simp only
  rw [sciDisplayText_cstr _ _ NODATA_no_NUL, sciDisplayText_cstr _ _ CRLF_no_NUL,
    sciDisplayText_eq]

theorem cycleStart_sent (s : State) :
    (cycleStart s).sent = s.sent ++ "UART Ready. Send data...\r\n".toList := by
  unfold cycleStart
  simp only
  rw [sciDisplayText_cstr _ _ READY_no_NUL]

/-- What a cycle yields, read off the state its collection loop exits in. -/
theorem cycle_of_collect (polls : Nat → Option Nat) (s c : State)
    (hc : collectLoop polls COLLECT_FUEL (cycleStart s) = some c) :
    mainCycle polls s = some (report c) ∧ cycleFrame polls s = some (frame c) ∧
      c.crc_value = s.crc_value ∧ c.crc_formatBuffer = s.crc_formatBuffer ∧
      c.sent = s.sent ++ "UART Ready. Send data...\r\n".toList ∧ c.crc_calls = s.crc_calls := by
  obtain ⟨h1, h2, h3, h4⟩ := collectLoop_sameReportState polls _ _ c hc
  refine ⟨by simp [mainCycle, hc], by simp [cycleFrame, hc], h1, h2, ?_, h4⟩
  rw [h3, cycleStart_sent]

theorem collect_of_cycleFrame (polls : Nat → Option Nat) (s : State) (F : List Nat)
    (hF : cycleFrame polls s = some F) :
    ∃ c, collectLoop polls COLLECT_FUEL (cycleStart s) = some c ∧ frame c = F := by
  unfold cycleFrame at hF
  rw [Option.map_eq_some'] at hF
  exact hF

/-- Every cycle completes, whatever the byte source does: the iteration bound of `mainCycle`
is never reached. -/
theorem mainCycle_returns (polls : Nat → Option Nat) (s : State) :
    ∃ s' F, mainCycle polls s = some s' ∧ cycleFrame polls s = some F := by
  obtain ⟨c, hc⟩ := cycle_collect_terminates polls s
  exact ⟨report c, frame c, (cycle_of_collect polls s c hc).1, (cycle_of_collect polls s c hc).2.1⟩

/-! ### Single-byte and silent cycles -/

theorem COLLECT_FUEL_eq : COLLECT_FUEL = 2048000 := by decide

theorem collect_silence (polls : Nat → Option Nat) (s : State)
    (h : ∀ j, j < 500 → polls (s.polled + j) = none) :
    collectLoop polls COLLECT_FUEL (cycleStart s) = some (idleBy (cycleStart s) 500) := by
  have e : COLLECT_FUEL = 2047500 + 500 := by decide
  rw [e, collectLoop_idle_run polls 500 2047500 (cycleStart s) h (by simp [cycleStart])
    (by simp [cycleStart])]
  exact collectLoop_exit polls _ _ ((collectGuard_false_iff _).mpr (Or.inl (by simp [idleBy, cycleStart])))

theorem collect_single_byte (polls : Nat → Option Nat) (s : State) (b : Nat)
    (h0 : polls s.polled = some b) (h : ∀ j, j < 500 → polls (s.polled + 1 + j) = none) :
    collectLoop polls COLLECT_FUEL (cycleStart s)
      = some (idleBy (collectStep polls (cycleStart s)) 500) := by
  have e : COLLECT_FUEL = 2047499 + 500 + 1 := by decide
  have g : collectGuard (cycleStart s) = true :=
    (collectGuard_iff _).mpr ⟨by simp [cycleStart], by simp [cycleStart]⟩
  have h0' : polls (cycleStart s).polled = some b := h0
  rw [e, collectLoop_step polls _ _ g, collectStep_some polls _ b h0',
    collectLoop_idle_run polls 500 2047499 _ h (by simp [cycleStart]) (by simp [cycleStart])]
  exact collectLoop_exit polls _ _ ((collectGuard_false_iff _).mpr (Or.inl (by simp [idleBy, cycleStart])))

theorem frame_idleBy (s : State) (g : Nat) : frame (idleBy s g) = frame s := rfl

theorem frame_cycleStart (s : State) : frame (cycleStart s) = [] := by
  simp [frame, cycleStart]

/-! ### Claims about one cycle of `main` -/

/-- C4: a cycle whose collected frame `F` is non-empty sends, after the ready prompt, exactly
`Updated CRC in Hex is : 0x`, the eight upper-case hex digits of `calc_crc32 F`, and CR LF. -/
theorem cycle_nonempty_report_text (polls : Nat → Option Nat) (s : State) (F : List Nat)
    (hF : cycleFrame polls s = some F) (hne : F ≠ []) :
    ∃ s', mainCycle polls s = some s' ∧
      s'.sent = s.sent ++ "UART Ready. Send data...\r\n".toList
        ++ ("Updated CRC in Hex is : 0x".toList ++ hex8 (calc_crc32 F) ++ "\r\n".toList) := by
  obtain ⟨c, hc, rfl⟩ := collect_of_cycleFrame polls s F hF
  obtain ⟨hm, _, _, _, hsent, _⟩ := cycle_of_collect polls s c hc
  have hpos : 0 < c.rx_count := by
    have := (frame_eq_nil_iff c).not.mp hne
    omega
  refine ⟨report c, hm, ?_⟩
  rw [(report_nonempty c hpos).2.2.2, hsent]
  simp only [List.append_assoc]

theorem cycle_nonempty_report_text_witness :
    cycleFrame pollsA (mainInit []) = some [0x41] ∧
    hex8 (calc_crc32 [0x41]) = "D3D99E8B".toList ∧
    ∃ s', mainCycle pollsA (mainInit []) = some s' ∧
      s'.sent = (mainInit []).sent ++ "UART Ready. Send data...\r\n".toList
        ++ ("Updated CRC in Hex is : 0x".toList ++ hex8 (calc_crc32 [0x41]) ++ "\r\n".toList) :=
  ⟨by decide, by decide,
    cycle_nonempty_report_text pollsA (mainInit []) [0x41] (by decide) (by decide)⟩

/-- C5: a cycle whose collected frame `F` is non-empty leaves `crc_value = calc_crc32 F`,
whatever `crc_value` was before; in particular one byte `b` followed by 500 empty polls
gives the frame `[b]` and `crc_value = calc_crc32 [b]`. -/
theorem cycle_nonempty_updates_crc (polls : Nat → Option Nat) (s : State) :
    (∀ F, cycleFrame polls s = some F → F ≠ [] →
      ∃ s', mainCycle polls s = some s' ∧ s'.crc_value = calc_crc32 F) ∧
    (∀ b, b < 256 → polls s.polled = some b →
      (∀ j, j < 500 → polls (s.polled + 1 + j) = none) →
      cycleFrame polls s = some [b] ∧
        ∃ s', mainCycle polls s = some s' ∧ s'.crc_value = calc_crc32 [b]) := by
  have key : ∀ F, cycleFrame polls s = some F → F ≠ [] →
      ∃ s', mainCycle polls s = some s' ∧ s'.crc_value = calc_crc32 F := by
    intro F hF hne
    obtain ⟨c, hc, rfl⟩ := collect_of_cycleFrame polls s F hF
    have hpos : 0 < c.rx_count := by
      have := (frame_eq_nil_iff c).not.mp hne
      omega
    exact ⟨report c, (cycle_of_collect polls s c hc).1, (report_nonempty c hpos).1⟩
  refine ⟨key, ?_⟩
  intro b hb h0 h
  have hc := collect_single_byte polls s b h0 h
  have hframe : cycleFrame polls s = some [b] := by
    rw [(cycle_of_collect polls s _ hc).2.1, frame_idleBy,
      frame_collectStep_some polls (cycleStart s) b h0 (by simp [cycleStart]),
      frame_cycleStart, Nat.mod_eq_of_lt hb]
    rfl
  exact ⟨hframe, key [b] hframe (by simp)⟩

theorem cycle_nonempty_updates_crc_witness :
    cycleFrame pollsA (mainInit []) = some [0x41] ∧
      ∃ s', mainCycle pollsA (mainInit []) = some s' ∧ s'.crc_value = calc_crc32 [0x41] :=
  (cycle_nonempty_updates_crc pollsA (mainInit [])).2 0x41 (by decide) rfl
    (fun j _ => by simp [pollsA, mainInit])

/-- C6 (evaluation at the failing input): started with a zeroed stack buffer and a silent byte
source, the first cycle reports no hex digits at all, while `crc_value` is 0xFFFFFFFF, whose
eight hex digits are FFFFFFFF. -/
theorem first_cycle_empty_reports_stack_buffer :
    (mainCycle pollsSilent (mainInit (List.replicate 9 NUL))).map State.sent
      = some ("Sequential CRC Calculator Started\r\nUART Ready. Send data...\r\n".toList
          ++ "No Data Received, Last Calculated CRC in Hex is : 0x\r\n".toList) ∧
    (mainInit (List.replicate 9 NUL)).crc_value = 0xFFFFFFFF ∧
    hex8 0xFFFFFFFF = "FFFFFFFF".toList := by
  refine ⟨?_, rfl, by decide⟩
  have hc := collect_silence pollsSilent (mainInit (List.replicate 9 NUL)) (fun _ _ => rfl)
  rw [(cycle_of_collect _ _ _ hc).1, Option.map_some']
  rw [(report_empty _ rfl).2.2.2]
  decide

/-- C7: a cycle that collects an empty frame leaves `crc_value` as it was and makes no call
of `calc_crc32`; a cycle that changes `crc_value` collected a non-empty frame. -/
theorem cycle_empty_keeps_crc (polls : Nat → Option Nat) (s : State) :
    (cycleFrame polls s = some [] →
      ∃ s', mainCycle polls s = some s' ∧ s'.crc_value = s.crc_value ∧
        s'.crc_calls = s.crc_calls) ∧
    (∀ s', mainCycle polls s = some s' → s'.crc_value ≠ s.crc_value →
      ∃ F, cycleFrame polls s = some F ∧ F ≠ []) := by
  have key : ∀ c, collectLoop polls COLLECT_FUEL (cycleStart s) = some c → frame c = [] →
      (report c).crc_value = s.crc_value ∧ (report c).crc_calls = s.crc_calls := by
    intro c hc hnil
    obtain ⟨_, _, hv, _, _, hcalls⟩ := cycle_of_collect polls s c hc
    obtain ⟨r1, _, r3, _⟩ := report_empty c ((frame_eq_nil_iff c).mp hnil)
    exact ⟨r1.trans hv, r3.trans hcalls⟩
  constructor
  · intro hF
    obtain ⟨c, hc, hnil⟩ := collect_of_cycleFrame polls s [] hF
    exact ⟨report c, (cycle_of_collect polls s c hc).1, key c hc hnil⟩
  · intro s' hs' hne
    obtain ⟨c, hc⟩ := cycle_collect_terminates polls s
    obtain ⟨hm, hf, _⟩ := cycle_of_collect polls s c hc
    refine ⟨frame c, hf, ?_⟩
    intro hnil
    rw [hm] at hs'
    cases hs'
    exact hne (key c hc hnil).1

theorem cycle_empty_keeps_crc_witness :
    ∃ s', mainCycle pollsSilent (mainInit []) = some s' ∧
      s'.crc_value = (mainInit []).crc_value ∧ s'.crc_calls = (mainInit []).crc_calls :=
  (cycle_empty_keeps_crc pollsSilent (mainInit [])).1 (by decide)

/-- C9: when every poll from the start of a cycle finds no byte, the collection loop exits
after exactly 500 polls and 500 one-millisecond sleeps, with `idle_counter = 500`,
`rx_count = 0` and an empty frame. -/
theorem silent_cycle_times_out (polls : Nat → Option Nat) (s : State)
    (h : ∀ k, polls (s.polled + k) = none) :
    ∃ c, collectLoop polls COLLECT_FUEL (cycleStart s) = some c ∧
      c.idle_counter = 500 ∧ c.rx_count = 0 ∧ frame c = [] ∧
      c.polled = s.polled + 500 ∧ c.slept_ms = s.slept_ms + 500 ∧
      collectLoop polls 499 (cycleStart s) = none := by
  refine ⟨_, collect_silence polls s (fun j _ => h j), rfl, rfl, ?_, rfl, rfl, ?_⟩
  · rw [frame_idleBy, frame_cycleStart]
  · have e := collectLoop_idle_run polls 499 0 (cycleStart s) (fun j _ => h j)
      (by simp [cycleStart]) (by simp [cycleStart])
    rw [Nat.zero_add] at e
    rw [e]
    simp [collectLoop, collectGuard, idleBy, cycleStart, MAX_DATA_LEN]

theorem silent_cycle_times_out_witness :
    ∃ c, collectLoop pollsSilent COLLECT_FUEL (cycleStart (mainInit [])) = some c ∧
      c.idle_counter = 500 ∧ c.rx_count = 0 ∧ frame c = [] ∧
      c.polled = (mainInit []).polled + 500 ∧ c.slept_ms = (mainInit []).slept_ms + 500 ∧
      collectLoop pollsSilent 499 (cycleStart (mainInit [])) = none :=
  silent_cycle_times_out pollsSilent (mainInit []) (fun _ => rfl)

/-! ### Bursts of bytes -/

theorem pollCount_le (gbs : List (Nat × Nat)) (hg : ∀ gb ∈ gbs, gb.1 < 500) :
    pollCount gbs ≤ 500 * gbs.length := by
  induction gbs with
  | nil => simp [pollCount]
  | cons gb rest ih =>
    have h1 := hg gb (List.mem_cons_self _ _)
    have h2 := ih (fun x hx => hg x (List.mem_cons_of_mem _ hx))
    simp only [pollCount, List.length_cons]
    omega

theorem deliversFrom_take (polls : Nat → Option Nat) (gbs : List (Nat × Nat)) (p n : Nat)
    (h : deliversFrom polls p gbs) : deliversFrom polls p (gbs.take n) := by
  induction gbs generalizing p n with
  | nil => simpa using h
  | cons gb rest ih =>
    cases n with
    | zero => simp [deliversFrom]
    | succ n =>
      obtain ⟨h1, h2, h3⟩ := h
      exact ⟨h1, h2, ih _ n h3⟩

theorem collect_arrivals (polls : Nat → Option Nat) (gbs : List (Nat × Nat)) (fuel : Nat)
    (s : State) (hd : deliversFrom polls s.polled gbs) (hg : ∀ gb ∈ gbs, gb.1 < 500)
    (hi : s.idle_counter = 0) (hc : s.rx_count + gbs.length ≤ 4096) :
    ∃ t, collectLoop polls (fuel + pollCount gbs) s = collectLoop polls fuel t ∧
      frame t = frame s ++ gbs.map (fun gb => gb.2 % 256) ∧
      t.rx_count = s.rx_count + gbs.length ∧ t.idle_counter = 0 ∧
      t.polled = s.polled + pollCount gbs := by
  induction gbs generalizing s with
  | nil => exact ⟨s, rfl, by simp, rfl, hi, rfl⟩
  | cons gb rest ih =>
    obtain ⟨h1, h2, h3⟩ := hd
    have hgap := hg gb (List.mem_cons_self _ _)
    have hlen : s.rx_count + (rest.length + 1) ≤ 4096 := by simpa using hc
    have hrx : s.rx_count < 4096 := by omega
    have e : fuel + pollCount (gb :: rest) = (fuel + pollCount rest + 1) + gb.1 := by
      simp only [pollCount]
      omega
    have hguard : collectGuard (idleBy s gb.1) = true :=
      (collectGuard_iff _).mpr ⟨by simp only [idleBy]; omega, hrx⟩
    have hp : polls (idleBy s gb.1).polled = some gb.2 := h2
    obtain ⟨t, ht, hf, hr, hidle, hpolled⟩ := ih (collectStep polls (idleBy s gb.1))
      (by rw [collectStep_some polls _ _ hp]; exact h3)
      (fun x hx => hg x (List.mem_cons_of_mem _ hx))
      (by rw [collectStep_some polls _ _ hp])
      (by rw [collectStep_some polls _ _ hp]; simp only [idleBy]; omega)
    refine ⟨t, ?_, ?_, ?_, hidle, ?_⟩
    · rw [e, collectLoop_idle_run polls gb.1 _ s h1 (by omega) hrx,
        collectLoop_step polls _ _ hguard, ht]
    · rw [hf, frame_collectStep_some polls _ gb.2 hp hrx, frame_idleBy]
      simp
    · rw [hr, collectStep_some polls _ _ hp]
      simp only [idleBy, List.length_cons]
      omega
    · rw [hpolled, collectStep_some polls _ _ hp]
      simp only [idleBy, pollCount]
      omega

theorem map_mod_256 (l : List (Nat × Nat)) (h : ∀ gb ∈ l, gb.2 < 256) :
    l.map (fun gb => gb.2 % 256) = l.map Prod.snd := by
  apply List.map_congr_left
  intro gb hgb
  exact Nat.mod_eq_of_lt (h gb hgb)

theorem polls5000_delivers (n p : Nat) (h : p + n ≤ 5000) :
    deliversFrom polls5000 p (List.replicate n (0, 0x41)) := by
  induction n generalizing p with
  | zero => trivial
  | succ n ih =>
    refine ⟨fun j hj => absurd hj (Nat.not_lt_zero j), ?_, ih (p + 0 + 1) (by omega)⟩
    have hp : p < 5000 := by omega
    simp [polls5000, hp]

/-- C8: when from the start of a cycle the source delivers at least 4096 bytes, each after
fewer than 500 empty polls, the collection loop exits on the buffer-full path with
`rx_count = 4096`; the frame is the first 4096 delivered bytes in order, it is non-empty and
it is the argument of the cycle's `calc_crc32` call. -/
theorem burst_fills_buffer (polls : Nat → Option Nat) (s : State) (gbs : List (Nat × Nat))
    (hlen : 4096 ≤ gbs.length) (hgap : ∀ gb ∈ gbs, gb.1 < 500) (hbyte : ∀ gb ∈ gbs, gb.2 < 256)
    (hd : deliversFrom polls s.polled gbs) :
    ∃ c, collectLoop polls COLLECT_FUEL (cycleStart s) = some c ∧
      c.rx_count = 4096 ∧ c.idle_counter = 0 ∧
      frame c = (gbs.map Prod.snd).take 4096 ∧ frame c ≠ [] ∧
      mainCycle polls s = some (report c) ∧
      (report c).crc_calls = s.crc_calls ++ [(gbs.map Prod.snd).take 4096] ∧
      (report c).crc_value = calc_crc32 ((gbs.map Prod.snd).take 4096) := by
  have hmem : ∀ gb ∈ gbs.take 4096, gb ∈ gbs := fun gb h => List.mem_of_mem_take h
  have hl : (gbs.take 4096).length = 4096 := by
    rw [List.length_take]
    exact Nat.min_eq_left hlen
  have hcount := pollCount_le (gbs.take 4096) (fun gb h => hgap gb (hmem gb h))
  rw [hl] at hcount
  obtain ⟨t, ht, hf, hr, hidle, _⟩ := collect_arrivals polls (gbs.take 4096)
    (COLLECT_FUEL - pollCount (gbs.take 4096)) (cycleStart s)
    (deliversFrom_take polls gbs _ 4096 hd) (fun gb h => hgap gb (hmem gb h)) rfl
    (by rw [hl]; simp [cycleStart])
  have efuel : COLLECT_FUEL - pollCount (gbs.take 4096) + pollCount (gbs.take 4096)
      = COLLECT_FUEL := by
    rw [COLLECT_FUEL_eq]
    omega
  have hr' : t.rx_count = 4096 := by
    rw [hr, hl]
    simp [cycleStart]
  rw [efuel, collectLoop_exit polls _ t ((collectGuard_false_iff t).mpr (Or.inr (by omega)))]
    at ht
  have hframe : frame t = (gbs.map Prod.snd).take 4096 := by
    rw [hf, frame_cycleStart, List.nil_append,
      map_mod_256 _ (fun gb h => hbyte gb (hmem gb h)), List.map_take]
  have hne : frame t ≠ [] := by
    intro h0
    have := (frame_eq_nil_iff t).mp h0
    omega
  obtain ⟨hm, _, _, _, _, hcalls⟩ := cycle_of_collect polls s t ht
  obtain ⟨r1, _, r3, _⟩ := report_nonempty t (by omega)
  exact ⟨t, ht, hr', hidle, hframe, hne, hm, by rw [r3, hcalls, hframe], by rw [r1, hframe]⟩

theorem burst_fills_buffer_witness :
    ∃ c, collectLoop polls5000 COLLECT_FUEL (cycleStart (mainInit [])) = some c ∧
      c.rx_count = 4096 ∧ c.idle_counter = 0 ∧
      frame c = ((List.replicate 5000 ((0 : Nat), (0x41 : Nat))).map Prod.snd).take 4096 ∧
      frame c ≠ [] ∧
      mainCycle polls5000 (mainInit []) = some (report c) ∧
      (report c).crc_calls = (mainInit []).crc_calls
        ++ [((List.replicate 5000 ((0 : Nat), (0x41 : Nat))).map Prod.snd).take 4096] ∧
      (report c).crc_value
        = calc_crc32 (((List.replicate 5000 ((0 : Nat), (0x41 : Nat))).map Prod.snd).take 4096) :=
  burst_fills_buffer polls5000 (mainInit []) (List.replicate 5000 (0, 0x41))
    (by rw [List.length_replicate]; norm_num)
    (fun gb h => by rw [List.eq_of_mem_replicate h]; decide)
    (fun gb h => by rw [List.eq_of_mem_replicate h]; decide)
    (polls5000_delivers 5000 0 (by decide))

/-! ### The frame of an arbitrary poll sequence -/

theorem received_succ_none (polls : Nat → Option Nat) (p n : Nat) (h : polls (p + n) = none) :
    received polls p (n + 1) = received polls p n := by
  simp [received, List.range_succ, h]

theorem received_succ_some (polls : Nat → Option Nat) (p n b : Nat)
    (h : polls (p + n) = some b) : received polls p (n + 1) = received polls p n ++ [b] := by
  simp [received, List.range_succ, h]

theorem received_extends (polls : Nat → Option Nat) (p m n : Nat) (h : m ≤ n) :
    ∃ t, received polls p n = received polls p m ++ t := by
  induction n with
  | zero =>
    have : m = 0 := by omega
    subst this
    exact ⟨[], by simp⟩
  | succ n ih =>
    by_cases hm : m = n + 1
    · subst hm
      exact ⟨[], by simp⟩
    · obtain ⟨t, ht⟩ := ih (by omega)
      cases hp : polls (p + n) with
      | none => exact ⟨t, by rw [received_succ_none polls p n hp, ht]⟩
      | some b =>
        exact ⟨t ++ [b], by rw [received_succ_some polls p n b hp, ht, List.append_assoc]⟩

theorem received_length_mono (polls : Nat → Option Nat) (p m n : Nat) (h : m ≤ n) :
    (received polls p m).length ≤ (received polls p n).length := by
  obtain ⟨t, ht⟩ := received_extends polls p m n h
  rw [ht, List.length_append]
  exact Nat.le_add_right _ _

theorem received_silent (polls : Nat → Option Nat) (p m n : Nat) (h : m ≤ n)
    (hs : ∀ k, m ≤ k → k < n → polls (p + k) = none) :
    received polls p n = received polls p m := by
  induction n with
  | zero =>
    have : m = 0 := by omega
    subst this
    rfl
  | succ n ih =>
    by_cases hm : m = n + 1
    · subst hm
      rfl
    · rw [received_succ_none polls p n (hs n (by omega) (by omega))]
      exact ih (by omega) (fun k h1 h2 => hs k h1 (by omega))

theorem collectInv_cycleStart (polls : Nat → Option Nat) (s : State) :
    CollectInv polls s.polled (cycleStart s) := by
  refine ⟨Nat.le_refl _, ?_, ?_, ?_, ?_, ?_, ?_, ?_, ?_, ?_⟩
  · rw [frame_cycleStart]
    simp [cycleStart, received]
  · simp [cycleStart, received]
  · simp [cycleStart]
  · simp [cycleStart]
  · simp [cycleStart]
  · intro k h1 h2
    simp only [cycleStart] at h1 h2
    omega
  · intro k h1 h2
    simp only [cycleStart] at h2
    omega
  · intro h
    simp [cycleStart] at h
  · intro h
    simp [cycleStart] at h

theorem collectInv_step (polls : Nat → Option Nat) (hb : ∀ k b, polls k = some b → b < 256)
    (p : Nat) (s : State) (inv : CollectInv polls p s) (g : collectGuard s = true) :
    CollectInv polls p (collectStep polls s) := by
  obtain ⟨hidle, hrx⟩ := (collectGuard_iff s).mp g
  have hpos : s.polled = p + (s.polled - p) := by
    have := inv.start_le
    omega
  have hsucc : s.polled + 1 - p = (s.polled - p) + 1 := by
    have := inv.start_le
    omega
  cases hp : polls s.polled with
  | none =>
    have hp' : polls (p + (s.polled - p)) = none := by rw [← hpos]; exact hp
    have hf := frame_collectStep_none polls s hp
    rw [collectStep_none polls s hp] at hf ⊢
    refine ⟨?_, ?_, ?_, ?_, ?_, ?_, ?_, ?_, ?_, ?_⟩
    · exact Nat.le_succ_of_le inv.start_le
    · rw [hf, inv.frame_eq]
      simp only
      rw [hsucc, received_succ_none polls p _ hp']
    · simp only
      rw [hsucc, received_succ_none polls p _ hp']
      exact inv.count_eq
    · exact inv.count_le
    · simp only
      omega
    · have := inv.idle_polls
      simp only
      omega
    · intro k h1 h2
      simp only at h1 h2
      by_cases hk : k = s.polled
      · rw [hk]
        exact hp
      · exact inv.tail_silent k (by omega) (by omega)
    · intro k h1 h2
      simp only at h2
      exact inv.no_earlier_run k h1 (by omega)
    · intro _
      exact hrx
    · intro h
      simp only at h
      omega
  | some b =>
    have hp' : polls (p + (s.polled - p)) = some b := by rw [← hpos]; exact hp
    have hf := frame_collectStep_some polls s b hp hrx
    rw [Nat.mod_eq_of_lt (hb _ _ hp)] at hf
    rw [collectStep_some polls s b hp] at hf ⊢
    refine ⟨?_, ?_, ?_, ?_, ?_, ?_, ?_, ?_, ?_, ?_⟩
    · exact Nat.le_succ_of_le inv.start_le
    · rw [hf, inv.frame_eq]
      simp only
      rw [hsucc, received_succ_some polls p _ b hp']
    · simp only
      rw [hsucc, received_succ_some polls p _ b hp', List.length_append, ← inv.count_eq]
      rfl
    · simp only
      omega
    · simp
    · simp
    · intro k h1 h2
      simp only at h1 h2
      omega
    · intro k h1 h2 hrun
      simp only at h2
      by_cases hk : k + s.idle_counter < s.polled
      · exact inv.no_earlier_run k h1 hk hrun
      · have hj := hrun (s.polled - k) (by omega)
        have e : k + (s.polled - k) = s.polled := by omega
        rw [e, hp] at hj
        cases hj
    · intro h
      simp at h
    · intro _
      refine ⟨rfl, ?_⟩
      intro m hm
      simp only at hm
      have h1 := received_length_mono polls p m (s.polled - p) (by omega)
      have h2 := inv.count_eq
      omega

theorem collectInv_exit (polls : Nat → Option Nat) (hb : ∀ k b, polls k = some b → b < 256)
    (s c : State) (hc : collectLoop polls COLLECT_FUEL (cycleStart s) = some c) :
    CollectInv polls s.polled c ∧ (c.idle_counter = 500 ∨ c.rx_count = 4096) := by
  obtain ⟨inv, g⟩ := collectLoop_invariant polls (CollectInv polls s.polled)
    (fun t ht gt => collectInv_step polls hb s.polled t ht gt) _ _ c
    (collectInv_cycleStart polls s) hc
  refine ⟨inv, ?_⟩
  have h1 := inv.idle_le
  have h2 := inv.count_le
  rcases (collectGuard_false_iff c).mp g with h | h
  · exact Or.inl (by omega)
  · exact Or.inr (by omega)

theorem frame_of_timeout (polls : Nat → Option Nat) (p : Nat) (c : State)
    (inv : CollectInv polls p c) (hi : c.idle_counter = 500) (K : Nat)
    (hrun : idleRunAt polls (p + K)) (hfirst : ∀ k, k < K → ¬ idleRunAt polls (p + k)) :
    frame c = (received polls p K).take 4096 := by
  have hle := inv.start_le
  have hpolls := inv.idle_polls
  have hroom := inv.timeout_room hi
  have htail : idleRunAt polls (p + (c.polled - p - 500)) := by
    intro j hj
    exact inv.tail_silent _ (by omega) (by omega)
  have hK : K = c.polled - p - 500 := by
    rcases Nat.lt_trichotomy K (c.polled - p - 500) with h | h | h
    · exact absurd hrun (inv.no_earlier_run (p + K) (by omega) (by omega))
    · exact h
    · exact absurd htail (hfirst _ h)
  have hsil : received polls p (c.polled - p) = received polls p K := by
    apply received_silent polls p K (c.polled - p) (by omega)
    intro k h1 h2
    exact inv.tail_silent (p + k) (by omega) (by omega)
  have hlen : (received polls p K).length ≤ 4096 := by
    rw [← hsil, ← inv.count_eq]
    omega
  rw [inv.frame_eq, hsil, List.take_of_length_le hlen]

theorem frame_of_full (polls : Nat → Option Nat) (p : Nat) (c : State)
    (inv : CollectInv polls p c) (hfull : c.rx_count = 4096) (N : Nat)
    (hN : c.polled - p ≤ N) : frame c = (received polls p N).take 4096 := by
  obtain ⟨t, ht⟩ := received_extends polls p (c.polled - p) N hN
  rw [ht, List.take_left' (by rw [← inv.count_eq]; exact hfull), inv.frame_eq]

/-- C10: for every sequence of byte-valued poll results the collection loop of a cycle returns,
and its frame is the bytes of the successful polls, in arrival order, that precede the first
run of 500 consecutive empty polls, cut to the first 4096 bytes (when no such run exists, the
first 4096 bytes received at all); a byte polled while the loop is running resets
`idle_counter` to 0 and is appended to the frame being collected. -/
theorem collected_frame_characterisation (polls : Nat → Option Nat) (s : State)
    (hb : ∀ k b, polls k = some b → b < 256) :
    ∃ c, collectLoop polls COLLECT_FUEL (cycleStart s) = some c ∧
      (∀ K, idleRunAt polls (s.polled + K) → (∀ k, k < K → ¬ idleRunAt polls (s.polled + k)) →
        frame c = (received polls s.polled K).take 4096) ∧
      ((∀ k, ¬ idleRunAt polls (s.polled + k)) → ∀ N, c.polled - s.polled ≤ N →
        frame c = (received polls s.polled N).take 4096) ∧
      (∀ t b, collectGuard t = true → polls t.polled = some b →
        (collectStep polls t).idle_counter = 0 ∧
          frame (collectStep polls t) = frame t ++ [b]) := by
  obtain ⟨c, hc⟩ := cycle_collect_terminates polls s
  obtain ⟨inv, hexit⟩ := collectInv_exit polls hb s c hc
  have hle := inv.start_le
  have hpolls := inv.idle_polls
  refine ⟨c, hc, ?_, ?_, ?_⟩
  · intro K hrun hfirst
    rcases hexit with hi | hfull
    · exact frame_of_timeout polls s.polled c inv hi K hrun hfirst
    · apply frame_of_full polls s.polled c inv hfull K
      by_contra hlt
      have hidle := (inv.full_fresh hfull).1
      exact inv.no_earlier_run (s.polled + K) (by omega) (by omega) hrun
  · intro hnone N hN
    rcases hexit with hi | hfull
    · exfalso
      apply hnone (c.polled - s.polled - 500)
      intro j hj
      exact inv.tail_silent _ (by omega) (by omega)
    · exact frame_of_full polls s.polled c inv hfull N hN
  · intro t b g hp
    have hrx := ((collectGuard_iff t).mp g).2
    refine ⟨by rw [collectStep_some polls t b hp], ?_⟩
    rw [frame_collectStep_some polls t b hp hrx, Nat.mod_eq_of_lt (hb _ _ hp)]

theorem pollsA_bytes : ∀ k b, pollsA k = some b → b < 256 := by
  intro k b h
  unfold pollsA at h
  split at h
  · cases h
    decide
  · cases h

/-- For `pollsA` the first run of 500 empty polls starts at poll 1, and the byte before it
is 0x41. -/
theorem pollsA_first_idle_run :
    idleRunAt pollsA (0 + 1) ∧ (∀ k, k < 1 → ¬ idleRunAt pollsA (0 + k)) ∧
      (received pollsA 0 1).take 4096 = [0x41] := by
  refine ⟨?_, ?_, by decide⟩
  · intro j _
    simp [pollsA]
  · intro k hk hrun
    have : k = 0 := by omega
    subst this
    have h0 := hrun 0 (by norm_num)
    simp [pollsA] at h0

theorem collected_frame_characterisation_witness :
    (∀ k b, pollsA k = some b → b < 256) ∧
      ∃ c, collectLoop pollsA COLLECT_FUEL (cycleStart (mainInit [])) = some c ∧
        frame c = [0x41] := by
  obtain ⟨c, hc, h1, _, _⟩ :=
    collected_frame_characterisation pollsA (mainInit []) pollsA_bytes
  refine ⟨pollsA_bytes, c, hc, ?_⟩
  rw [← pollsA_first_idle_run.2.2]
  exact h1 1 pollsA_first_idle_run.1 pollsA_first_idle_run.2.1

/-! ## Further facts about reflection -/

theorem reflect8_lt (x : Nat) : reflect8 x < 2 ^ 8 := by
  apply Nat.lt_pow_two_of_testBit
  intro i hi
  rw [testBit_reflect8]
  have : ¬ i < 8 := by omega
  simp [this]

theorem reflect32_lt (x : Nat) : reflect32 x < 2 ^ 32 := by
  apply Nat.lt_pow_two_of_testBit
  intro i hi
  rw [testBit_reflect32]
  have : ¬ i < 32 := by omega
  simp [this]

theorem testBit_eq_false_of_lt {x n i : Nat} (hx : x < 2 ^ n) (hi : n ≤ i) :
    x.testBit i = false :=
  Nat.testBit_lt_two_pow (Nat.lt_of_lt_of_le hx (Nat.pow_le_pow_right (by norm_num) hi))

theorem reflect8_reflect8 (b : Nat) (hb : b < 2 ^ 8) : reflect8 (reflect8 b) = b := by
  apply Nat.eq_of_testBit_eq
  intro k
  rw [testBit_reflect8, testBit_reflect8]
  by_cases h : k < 8
  · have h1 : 7 - k < 8 := by omega
    have h2 : 7 - (7 - k) = k := by omega
    simp [h, h1, h2]
  · have hk : b.testBit k = false := testBit_eq_false_of_lt hb (by omega : 8 ≤ k)
    simp [h, hk]

theorem reflect32_reflect32 (x : Nat) (hx : x < 2 ^ 32) : reflect32 (reflect32 x) = x := by
  apply Nat.eq_of_testBit_eq
  intro k
  rw [testBit_reflect32, testBit_reflect32]
  by_cases h : k < 32
  · have h1 : 31 - k < 32 := by omega
    have h2 : 31 - (31 - k) = k := by omega
    simp [h, h1, h2]
  · have hk : x.testBit k = false := testBit_eq_false_of_lt hx (by omega : 32 ≤ k)
    simp [h, hk]

/-- C13: `calc_crc32` depends on the byte order: with `A = [0x01]` and `B = [0x02]` the
checksums of `A ++ B` and `B ++ A` differ. -/
theorem calc_crc32_order_sensitive :
    ∃ A B : List Nat, calc_crc32 (A ++ B) ≠ calc_crc32 (B ++ A) :=
  ⟨[0x01], [0x02], by decide⟩

/-- C15: for every byte `b` and every `i` in 0..7, bit `i` of `reflect8 b` is bit `7 - i` of
`b`; hence `reflect8 (reflect8 b) = b`. -/
theorem reflect8_bits (b : Nat) (hb : b < 256) :
    (∀ i, i < 8 → (reflect8 b).testBit i = b.testBit (7 - i)) ∧ reflect8 (reflect8 b) = b := by
  refine ⟨?_, reflect8_reflect8 b hb⟩
  intro i hi
  rw [testBit_reflect8]
  simp [hi]

theorem reflect8_bits_witness :
    (0xA5 : Nat) < 256 ∧ ((∀ i, i < 8 → (reflect8 0xA5).testBit i = (0xA5 : Nat).testBit (7 - i)) ∧
      reflect8 (reflect8 0xA5) = 0xA5) :=
  ⟨by decide, reflect8_bits 0xA5 (by decide)⟩

/-- C16: for every 32-bit word `x` and every `i` in 0..31, bit `i` of `reflect32 x` is bit
`31 - i` of `x`; hence `reflect32 (reflect32 x) = x`. -/
theorem reflect32_bits (x : Nat) (hx : x < 2 ^ 32) :
    (∀ i, i < 32 → (reflect32 x).testBit i = x.testBit (31 - i)) ∧
      reflect32 (reflect32 x) = x := by
  refine ⟨?_, reflect32_reflect32 x hx⟩
  intro i hi
  rw [testBit_reflect32]
  simp [hi]

theorem reflect32_bits_witness :
    (0x04C11DB7 : Nat) < 2 ^ 32 ∧
      ((∀ i, i < 32 → (reflect32 0x04C11DB7).testBit i = (0x04C11DB7 : Nat).testBit (31 - i)) ∧
        reflect32 (reflect32 0x04C11DB7) = 0x04C11DB7) :=
  ⟨by decide, reflect32_bits 0x04C11DB7 (by decide)⟩

/-! ## Algebra of the reflected CRC register -/

theorem testBit_reference_shift (z k : Nat) :
    (reference_shift z).testBit k
      = (z.testBit (k + 1) ^^ (z.testBit 0 && (0xEDB88320 : Nat).testBit k)) := by
  unfold reference_shift
  by_cases h : z &&& 1 ≠ 0
  · rw [if_pos h, Nat.testBit_xor, Nat.testBit_shiftRight, (low_bit_iff z).mp h,
      Nat.add_comm 1 k]
    simp
  · have h0 : z.testBit 0 = false := by
      have := (not_congr (low_bit_iff z)).mp h
      simpa using this
    rw [if_neg h, Nat.testBit_shiftRight, h0, Nat.add_comm 1 k]
    simp

theorem reference_shift_xor (x y : Nat) :
    reference_shift (x ^^^ y) = reference_shift x ^^^ reference_shift y := by
  apply Nat.eq_of_testBit_eq
  intro k
  simp only [testBit_reference_shift, Nat.testBit_xor]
  cases x.testBit (k + 1) <;> cases y.testBit (k + 1) <;> cases x.testBit 0 <;>
    cases y.testBit 0 <;> cases (0xEDB88320 : Nat).testBit k <;> rfl

theorem reference_shift_lt (z : Nat) (hz : z < 2 ^ 32) : reference_shift z < 2 ^ 32 := by
  have h1 : z >>> 1 < 2 ^ 32 := by
    rw [Nat.shiftRight_eq_div_pow]
    exact Nat.lt_of_le_of_lt (Nat.div_le_self _ _) hz
  unfold reference_shift
  split
  · exact Nat.xor_lt_two_pow h1 (by norm_num)
  · exact h1

theorem reference_shift_inj (x y : Nat) (hx : x < 2 ^ 32) (hy : y < 2 ^ 32)
    (h : reference_shift x = reference_shift y) : x = y := by
  have hbit : ∀ k, (reference_shift x).testBit k = (reference_shift y).testBit k := by
    intro k
    rw [h]
  have hx32 : x.testBit 32 = false := testBit_eq_false_of_lt hx (Nat.le_refl 32)
  have hy32 : y.testBit 32 = false := testBit_eq_false_of_lt hy (Nat.le_refl 32)
  have hp31 : (0xEDB88320 : Nat).testBit 31 = true := by decide
  have h0 : x.testBit 0 = y.testBit 0 := by
    have := hbit 31
    rw [testBit_reference_shift, testBit_reference_shift, hx32, hy32, hp31] at this
    simpa using this
  apply Nat.eq_of_testBit_eq
  intro k
  cases k with
  | zero => exact h0
  | succ k =>
    have := hbit k
    rw [testBit_reference_shift, testBit_reference_shift, h0] at this
    revert this
    cases x.testBit (k + 1) <;> cases y.testBit (k + 1) <;>
      cases (y.testBit 0 && (0xEDB88320 : Nat).testBit k) <;> simp

theorem reference_shifts_xor (l : List Nat) (x y : Nat) :
    reference_shifts l (x ^^^ y) = reference_shifts l x ^^^ reference_shifts l y := by
  induction l generalizing x y with
  | nil => rfl
  | cons _ l ih =>
    simp only [reference_shifts, List.foldl_cons] at ih ⊢
    rw [reference_shift_xor, ih]

theorem reference_shifts_lt (l : List Nat) (z : Nat) (hz : z < 2 ^ 32) :
    reference_shifts l z < 2 ^ 32 := by
  induction l generalizing z with
  | nil => exact hz
  | cons _ l ih => exact ih _ (reference_shift_lt z hz)

theorem reference_shifts_inj (l : List Nat) (x y : Nat) (hx : x < 2 ^ 32) (hy : y < 2 ^ 32)
    (h : reference_shifts l x = reference_shifts l y) : x = y := by
  induction l generalizing x y with
  | nil => exact h
  | cons _ l ih =>
    exact reference_shift_inj x y hx hy
      (ih _ _ (reference_shift_lt x hx) (reference_shift_lt y hy) h)

theorem reference_byte_eq (c b : Nat) :
    reference_byte c b = reference_shifts (List.range 8) (c ^^^ b) := rfl

theorem byte_lt_word {b : Nat} (hb : b < 256) : b < 2 ^ 32 :=
  Nat.lt_of_lt_of_le hb (by norm_num)

theorem reference_byte_lt (c b : Nat) (hc : c < 2 ^ 32) (hb : b < 256) :
    reference_byte c b < 2 ^ 32 :=
  reference_shifts_lt _ _ (Nat.xor_lt_two_pow hc (byte_lt_word hb))

theorem fold_reference_byte_lt (data : List Nat) (hd : ∀ b ∈ data, b < 256) (c : Nat)
    (hc : c < 2 ^ 32) : data.foldl reference_byte c < 2 ^ 32 := by
  induction data generalizing c with
  | nil => exact hc
  | cons b data ih =>
    exact ih (fun x hx => hd x (List.mem_cons_of_mem _ hx)) _
      (reference_byte_lt c b hc (hd b (List.mem_cons_self _ _)))

theorem fold_reference_byte_inj (data : List Nat) (hd : ∀ b ∈ data, b < 256) (c d : Nat)
    (hc : c < 2 ^ 32) (hd2 : d < 2 ^ 32)
    (h : data.foldl reference_byte c = data.foldl reference_byte d) : c = d := by
  induction data generalizing c d with
  | nil => exact h
  | cons b data ih =>
    have hb := hd b (List.mem_cons_self _ _)
    have h1 := ih (fun x hx => hd x (List.mem_cons_of_mem _ hx)) _ _
      (reference_byte_lt c b hc hb) (reference_byte_lt d b hd2 hb) h
    rw [reference_byte_eq, reference_byte_eq] at h1
    have h2 := reference_shifts_inj _ _ _ (Nat.xor_lt_two_pow hc (byte_lt_word hb))
      (Nat.xor_lt_two_pow hd2 (byte_lt_word hb)) h1
    exact Nat.xor_left_inj.mp h2

/-- Two lists that agree at every index except `i`, where they differ, split around `i`. -/
theorem split_at_difference (A B : List Nat) (i : Nat) (hi : i < A.length)
    (hlen : A.length = B.length) (hne : A[i]? ≠ B[i]?) (heq : ∀ j, j ≠ i → A[j]? = B[j]?) :
    ∃ P a b S, A = P ++ a :: S ∧ B = P ++ b :: S ∧ a ≠ b := by
  induction A generalizing B i with
  | nil => simp at hi
  | cons x A ih =>
    cases B with
    | nil => simp at hlen
    | cons y B =>
      cases i with
      | zero =>
        refine ⟨[], x, y, A, rfl, ?_, ?_⟩
        · have : A = B := by
            apply List.ext_getElem?
            intro j
            have := heq (j + 1) (by omega)
            simpa using this
          rw [this]
          rfl
        · intro hxy
          apply hne
          simp [hxy]
      | succ i =>
        have hxy : x = y := by
          have := heq 0 (by omega)
          simpa using this
        obtain ⟨P, a, b, S, hA, hB, hab⟩ := ih B i (by simpa using hi) (by simpa using hlen)
          (by simpa using hne)
          (by
            intro j hj
            have := heq (j + 1) (by omega)
            simpa using this)
        exact ⟨x :: P, a, b, S, by rw [hA]; rfl, by rw [hB, hxy]; rfl, hab⟩

theorem crc32_reference_differs (P S : List Nat) (a b : Nat)
    (hP : ∀ x ∈ P, x < 256) (hS : ∀ x ∈ S, x < 256) (ha : a < 256) (hb : b < 256)
    (hab : a ≠ b) : crc32_reference (P ++ a :: S) ≠ crc32_reference (P ++ b :: S) := by
  intro h
  unfold crc32_reference at h
  have h1 := Nat.xor_left_inj.mp h
  rw [List.foldl_append, List.foldl_append, List.foldl_cons, List.foldl_cons] at h1
  have hr : P.foldl reference_byte 0xFFFFFFFF < 2 ^ 32 :=
    fold_reference_byte_lt P hP _ (by norm_num)
  have h2 := fold_reference_byte_inj S hS _ _ (reference_byte_lt _ a hr ha)
    (reference_byte_lt _ b hr hb) h1
  rw [reference_byte_eq, reference_byte_eq] at h2
  have h3 := reference_shifts_inj _ _ _ (Nat.xor_lt_two_pow hr (byte_lt_word ha))
    (Nat.xor_lt_two_pow hr (byte_lt_word hb)) h2
  exact hab (Nat.xor_right_inj.mp h3)

/-- C19: two byte sequences of the same length that differ in exactly one byte position
have different checksums. -/
theorem calc_crc32_detects_single_byte_change (A B : List Nat)
    (hA : ∀ x ∈ A, x < 256) (hB : ∀ x ∈ B, x < 256) (hlen : A.length = B.length)
    (i : Nat) (hi : i < A.length) (hne : A[i]? ≠ B[i]?) (heq : ∀ j, j ≠ i → A[j]? = B[j]?) :
    calc_crc32 A ≠ calc_crc32 B := by
  obtain ⟨P, a, b, S, rfl, rfl, hab⟩ := split_at_difference A B i hi hlen hne heq
  rw [calc_crc32_fold_reference _ hA, calc_crc32_fold_reference _ hB]
  apply crc32_reference_differs P S a b
  · exact fun x hx => hA x (List.mem_append_left _ hx)
  · exact fun x hx => hA x (List.mem_append_right _ (List.mem_cons_of_mem _ hx))
  · exact hA a (List.mem_append_right _ (List.mem_cons_self _ _))
  · exact hB b (List.mem_append_right _ (List.mem_cons_self _ _))
  · exact hab

theorem calc_crc32_detects_single_byte_change_witness :
    calc_crc32 [0x10, 0x20, 0x30] ≠ calc_crc32 [0x10, 0x21, 0x30] :=
  calc_crc32_detects_single_byte_change [0x10, 0x20, 0x30] [0x10, 0x21, 0x30]
    (by decide) (by decide) rfl 1 (by decide) (by decide)
    (fun j hj => by
      match j with
      | 0 => rfl
      | 1 => exact absurd rfl hj
      | 2 => rfl
      | (k + 3) => rfl)

/-! ## The residue of a message followed by its checksum -/

theorem shifts8_byte1 : ∀ v < 256, reference_shifts (List.range 8) (v <<< 8) = v := by decide

theorem shifts16_byte2 :
    ∀ v < 256, reference_shifts (List.range 8) (reference_shifts (List.range 8) (v <<< 16)) = v := by
  decide

theorem shifts24_byte3 :
    ∀ v < 256, reference_shifts (List.range 8) (reference_shifts (List.range 8)
      (reference_shifts (List.range 8) (v <<< 24))) = v := by
  decide

theorem testBit_0xFF (k : Nat) : (0xFF : Nat).testBit k = decide (k < 8) := by
  have e : (0xFF : Nat) = 2 ^ 8 - 1 := by norm_num
  rw [e, Nat.testBit_two_pow_sub_one]

theorem word_from_bytes (c : Nat) (hc : c < 2 ^ 32) :
    (c &&& 0xFF) ^^^ (((c >>> 8) &&& 0xFF) <<< 8) ^^^ (((c >>> 16) &&& 0xFF) <<< 16)
      ^^^ (((c >>> 24) &&& 0xFF) <<< 24) = c := by
  apply Nat.eq_of_testBit_eq
  intro k
  simp only [Nat.testBit_xor, Nat.testBit_and, Nat.testBit_shiftLeft, Nat.testBit_shiftRight,
    testBit_0xFF]
  by_cases h1 : k < 8
  · have a2 : ¬ k ≥ 8 := by omega
    have a3 : ¬ k ≥ 16 := by omega
    have a4 : ¬ k ≥ 24 := by omega
    simp [h1, a2, a3, a4]
  · by_cases h2 : k < 16
    · have a2 : k ≥ 8 := by omega
      have a3 : ¬ k ≥ 16 := by omega
      have a4 : ¬ k ≥ 24 := by omega
      have b2 : k - 8 < 8 := by omega
      have e2 : 8 + (k - 8) = k := by omega
      simp [h1, a2, a3, a4, b2, e2]
    · by_cases h3 : k < 24
      · have a2 : k ≥ 8 := by omega
        have a3 : k ≥ 16 := by omega
        have a4 : ¬ k ≥ 24 := by omega
        have b2 : ¬ k - 8 < 8 := by omega
        have b3 : k - 16 < 8 := by omega
        have e3 : 16 + (k - 16) = k := by omega
        simp [h1, a2, a3, a4, b2, b3, e3]
      · by_cases h4 : k < 32
        · have a2 : k ≥ 8 := by omega
          have a3 : k ≥ 16 := by omega
          have a4 : k ≥ 24 := by omega
          have b2 : ¬ k - 8 < 8 := by omega
          have b3 : ¬ k - 16 < 8 := by omega
          have b4 : k - 24 < 8 := by omega
          have e4 : 24 + (k - 24) = k := by omega
          simp [h1, a2, a3, a4, b2, b3, b4, e4]
        · have a2 : k ≥ 8 := by omega
          have a3 : k ≥ 16 := by omega
          have a4 : k ≥ 24 := by omega
          have b2 : ¬ k - 8 < 8 := by omega
          have b3 : ¬ k - 16 < 8 := by omega
          have b4 : ¬ k - 24 < 8 := by omega
          have hk : c.testBit k = false := testBit_eq_false_of_lt hc (by omega : 32 ≤ k)
          simp [h1, a2, a3, a4, b2, b3, b4, hk]

theorem and_0xFF_lt (x : Nat) : x &&& 0xFF < 256 :=
  Nat.lt_of_le_of_lt Nat.and_le_right (by norm_num)

/-- Feeding the four bytes of a word, low byte first, into the reflected register is the same
as XOR-ing the whole word in and shifting 32 times. -/
theorem reference_bytes_of_word (r c : Nat) (hc : c < 2 ^ 32) :
    [c &&& 0xFF, (c >>> 8) &&& 0xFF, (c >>> 16) &&& 0xFF, (c >>> 24) &&& 0xFF].foldl
        reference_byte r
      = reference_shifts (List.range 8) (reference_shifts (List.range 8)
          (reference_shifts (List.range 8) (reference_shifts (List.range 8) (r ^^^ c)))) := by
  have e1 := shifts8_byte1 _ (and_0xFF_lt (c >>> 8))
  have e2 := shifts16_byte2 _ (and_0xFF_lt (c >>> 16))
  have e3 := shifts24_byte3 _ (and_0xFF_lt (c >>> 24))
  simp only [List.foldl_cons, List.foldl_nil, reference_byte_eq]
  conv_rhs => rw [← word_from_bytes c hc]
  conv_lhs => rw [← e1, ← e2, ← e3]
  simp only [← reference_shifts_xor, Nat.xor_assoc]

theorem calc_crc32_lt (data : List Nat) : calc_crc32 data < 2 ^ 32 :=
  Nat.xor_lt_two_pow (reflect32_lt _) (by decide)

theorem residue_constant :
    reference_shifts (List.range 8) (reference_shifts (List.range 8)
      (reference_shifts (List.range 8) (reference_shifts (List.range 8) 0xFFFFFFFF)))
        ^^^ 0xFFFFFFFF = 0x2144DF1C := by
  decide

/-- C20: for every byte sequence `A` with `c = calc_crc32 A`, the checksum of `A` followed by
the four bytes of `c`, low byte first, is the constant `0x2144DF1C`. -/
theorem calc_crc32_residue (A : List Nat) (hA : ∀ x ∈ A, x < 256) :
    calc_crc32 (A ++ [calc_crc32 A &&& 0xFF, (calc_crc32 A >>> 8) &&& 0xFF,
      (calc_crc32 A >>> 16) &&& 0xFF, (calc_crc32 A >>> 24) &&& 0xFF]) = 0x2144DF1C := by
  have hbytes : ∀ x ∈ A ++ [calc_crc32 A &&& 0xFF, (calc_crc32 A >>> 8) &&& 0xFF,
      (calc_crc32 A >>> 16) &&& 0xFF, (calc_crc32 A >>> 24) &&& 0xFF], x < 256 := by
    intro x hx
    rcases List.mem_append.mp hx with h | h
    · exact hA x h
    · simp only [List.mem_cons, List.mem_singleton, List.not_mem_nil, or_false] at h
      rcases h with h | h | h | h <;> rw [h] <;> exact and_0xFF_lt _
  rw [calc_crc32_fold_reference _ hbytes]
  unfold crc32_reference
  rw [List.foldl_append, reference_bytes_of_word _ _ (calc_crc32_lt A),
    calc_crc32_fold_reference A hA]
  unfold crc32_reference
  rw [Nat.xor_cancel_left]
  exact residue_constant

theorem calc_crc32_residue_witness :
    (∀ x ∈ [0x31, 0x32, 0x33, 0x34, 0x35, 0x36, 0x37, 0x38, 0x39], x < 256) ∧
    calc_crc32 ([0x31, 0x32, 0x33, 0x34, 0x35, 0x36, 0x37, 0x38, 0x39] ++
      [calc_crc32 [0x31, 0x32, 0x33, 0x34, 0x35, 0x36, 0x37, 0x38, 0x39] &&& 0xFF,
       (calc_crc32 [0x31, 0x32, 0x33, 0x34, 0x35, 0x36, 0x37, 0x38, 0x39] >>> 8) &&& 0xFF,
       (calc_crc32 [0x31, 0x32, 0x33, 0x34, 0x35, 0x36, 0x37, 0x38, 0x39] >>> 16) &&& 0xFF,
       (calc_crc32 [0x31, 0x32, 0x33, 0x34, 0x35, 0x36, 0x37, 0x38, 0x39] >>> 24) &&& 0xFF])
      = 0x2144DF1C :=
  ⟨by decide, calc_crc32_residue [0x31, 0x32, 0x33, 0x34, 0x35, 0x36, 0x37, 0x38, 0x39]
    (by decide)⟩

/-! ## The states of one collection cycle -/

theorem collectStep_polled (polls : Nat → Option Nat) (s : State) :
    (collectStep polls s).polled = s.polled + 1 := by
  unfold collectStep
  cases polls s.polled <;> rfl

theorem iterate_collectStep_polled (polls : Nat → Option Nat) (j : Nat) (s : State) :
    (Nat.iterate (collectStep polls) j s).polled = s.polled + j := by
  induction j generalizing s with
  | zero => rfl
  | succ j ih =>
    rw [Function.iterate_succ_apply, ih, collectStep_polled]
    omega

theorem collectLoop_run (polls : Nat → Option Nat) (fuel : Nat) (s c : State)
    (hc : collectLoop polls fuel s = some c) :
    ∃ n, n ≤ fuel ∧ Nat.iterate (collectStep polls) n s = c ∧
      (∀ j, j < n → collectGuard (Nat.iterate (collectStep polls) j s) = true) ∧
      collectGuard c = false := by
  induction fuel generalizing s with
  | zero =>
    by_cases g : collectGuard s = true
    · simp [collectLoop, g] at hc
    · simp [collectLoop, g] at hc
      subst hc
      exact ⟨0, Nat.le_refl 0, rfl, fun j hj => absurd hj (Nat.not_lt_zero j), by simpa using g⟩
  | succ fuel ih =>
    by_cases g : collectGuard s = true
    · rw [collectLoop_step polls fuel s g] at hc
      obtain ⟨n, hn, hit, hg, hexit⟩ := ih _ hc
      refine ⟨n + 1, by omega, hit, ?_, hexit⟩
      intro j hj
      cases j with
      | zero => exact g
      | succ j => exact hg j (by omega)
    · simp [collectLoop, g] at hc
      subst hc
      exact ⟨0, Nat.zero_le _, rfl, fun j hj => absurd hj (Nat.not_lt_zero j), by simpa using g⟩

/-- The collection loop of a cycle runs through the states `collectState polls s 0`, ...,
`collectState polls s n` and stops in the last one, the first that fails the loop condition. -/
theorem cycle_run (polls : Nat → Option Nat) (s : State) :
    ∃ n c, collectLoop polls COLLECT_FUEL (cycleStart s) = some c ∧
      c = collectState polls s n ∧ n ≤ COLLECT_FUEL ∧
      (∀ j, j < n → collectGuard (collectState polls s j) = true) ∧
      collectGuard c = false := by
  obtain ⟨c, hc⟩ := cycle_collect_terminates polls s
  obtain ⟨n, hn, hit, hg, hexit⟩ := collectLoop_run polls _ _ c hc
  exact ⟨n, c, hc, hit.symm, hn, hg, hexit⟩

theorem collectState_succ (polls : Nat → Option Nat) (s : State) (j : Nat) :
    collectState polls s (j + 1) = collectStep polls (collectState polls s j) :=
  Function.iterate_succ_apply' _ _ _

/-- Counter bounds that hold in every state of a collection cycle. -/
theorem collectStep_bounds (polls : Nat → Option Nat) (t : State)
    (h : t.rx_count ≤ 4096 ∧ t.idle_counter ≤ 500 ∧ (t.idle_counter = 500 → t.rx_count < 4096) ∧
      (t.rx_count = 4096 → t.idle_counter = 0))
    (g : collectGuard t = true) :
    (collectStep polls t).rx_count ≤ 4096 ∧ (collectStep polls t).idle_counter ≤ 500 ∧
      ((collectStep polls t).idle_counter = 500 → (collectStep polls t).rx_count < 4096) ∧
      ((collectStep polls t).rx_count = 4096 → (collectStep polls t).idle_counter = 0) := by
  obtain ⟨hi, hr⟩ := (collectGuard_iff t).mp g
  cases hp : polls t.polled with
  | none =>
    rw [collectStep_none polls t hp]
    refine ⟨?_, ?_, ?_, ?_⟩ <;> simp only <;> omega
  | some b =>
    rw [collectStep_some polls t b hp]
    exact ⟨by simp only; omega, Nat.zero_le _, fun h0 => by simp at h0, fun _ => rfl⟩

theorem collectState_bounds (polls : Nat → Option Nat) (s : State) (n : Nat)
    (hg : ∀ j, j < n → collectGuard (collectState polls s j) = true) (j : Nat) (hj : j ≤ n) :
    (collectState polls s j).rx_count ≤ 4096 ∧ (collectState polls s j).idle_counter ≤ 500 ∧
      ((collectState polls s j).idle_counter = 500 → (collectState polls s j).rx_count < 4096) ∧
      ((collectState polls s j).rx_count = 4096 → (collectState polls s j).idle_counter = 0) := by
  induction j with
  | zero =>
    simp [collectState, cycleStart]
  | succ j ih =>
    rw [collectState_succ]
    exact collectStep_bounds polls _ (ih (by omega)) (hg j (by omega))

/-- C11: in every state of a collection cycle `rx_count <= 4096` and `idle_counter <= 500`;
every store `rx_data[rx_count++] = ...` happens at an index below 4096; the frame yielded at
the end of the cycle has between 0 and 4096 bytes. -/
theorem collect_states_in_bounds (polls : Nat → Option Nat) (s : State) :
    ∃ n c, collectLoop polls COLLECT_FUEL (cycleStart s) = some c ∧
      c = collectState polls s n ∧
      (∀ j, j ≤ n → (collectState polls s j).rx_count ≤ 4096 ∧
        (collectState polls s j).idle_counter ≤ 500) ∧
      (∀ j b, j < n → polls (collectState polls s j).polled = some b →
        (collectState polls s j).rx_count < MAX_DATA_LEN ∧
        (collectState polls s (j + 1)).rx_data
          = (collectState polls s j).rx_data.write (collectState polls s j).rx_count b) ∧
      0 ≤ (frame c).length ∧ (frame c).length ≤ 4096 ∧ (frame c).length = c.rx_count := by
  obtain ⟨n, c, hc, hcn, _, hg, _⟩ := cycle_run polls s
  have hb := collectState_bounds polls s n hg
  have hcb := hb n (Nat.le_refl n)
  rw [← hcn] at hcb
  refine ⟨n, c, hc, hcn, fun j hj => ⟨(hb j hj).1, (hb j hj).2.1⟩, ?_, Nat.zero_le _, ?_, ?_⟩
  · intro j b hj hp
    refine ⟨((collectGuard_iff _).mp (hg j hj)).2, ?_⟩
    rw [collectState_succ, collectStep_some polls _ b hp]
  · rw [frame_length c hcb.1]
    exact hcb.1
  · exact frame_length c hcb.1

/-- C12: the collection loop ends exactly when `idle_counter` reaches 500 or `rx_count`
reaches 4096: at its exit exactly one of `idle_counter = 500 and rx_count < 4096` and
`rx_count = 4096 and idle_counter = 0` holds, and in every earlier state of the cycle
`idle_counter < 500` and `rx_count < 4096`. -/
theorem collect_exit_condition (polls : Nat → Option Nat) (s : State) :
    ∃ n c, collectLoop polls COLLECT_FUEL (cycleStart s) = some c ∧
      c = collectState polls s n ∧
      ((c.idle_counter = 500 ∧ c.rx_count < 4096) ∨ (c.rx_count = 4096 ∧ c.idle_counter = 0)) ∧
      ¬ ((c.idle_counter = 500 ∧ c.rx_count < 4096) ∧ (c.rx_count = 4096 ∧ c.idle_counter = 0)) ∧
      (∀ j, j < n → (collectState polls s j).idle_counter < 500 ∧
        (collectState polls s j).rx_count < 4096) := by
  obtain ⟨n, c, hc, hcn, _, hg, hexit⟩ := cycle_run polls s
  have hcb := collectState_bounds polls s n hg n (Nat.le_refl n)
  rw [← hcn] at hcb
  obtain ⟨h1, h2, h3, h4⟩ := hcb
  refine ⟨n, c, hc, hcn, ?_, ?_, fun j hj => (collectGuard_iff _).mp (hg j hj)⟩
  · rcases (collectGuard_false_iff c).mp hexit with h | h
    · have : c.idle_counter = 500 := by omega
      exact Or.inl ⟨this, h3 this⟩
    · have : c.rx_count = 4096 := by omega
      exact Or.inr ⟨this, h4 this⟩
  · rintro ⟨⟨ha, _⟩, _, hb⟩
    omega

/-- C14: for every sequence of poll results the collection loop of a cycle terminates after
at most 2,048,000 polls; each iteration either stores a byte (`rx_count` grows by one, staying
at most 4096) or counts an empty poll (`idle_counter` grows by one, staying at most 500). -/
theorem collect_terminates_within_bound (polls : Nat → Option Nat) (s : State) :
    ∃ n c, collectLoop polls 2048000 (cycleStart s) = some c ∧
      c = collectState polls s n ∧ n ≤ 4096 * 500 ∧ c.polled = s.polled + n ∧
      collectGuard c = false ∧
      (∀ t, collectGuard t = true →
        ((collectStep polls t).rx_count = t.rx_count + 1 ∧ (collectStep polls t).rx_count ≤ 4096 ∧
          (collectStep polls t).idle_counter = 0) ∨
        ((collectStep polls t).rx_count = t.rx_count ∧
          (collectStep polls t).idle_counter = t.idle_counter + 1 ∧
          (collectStep polls t).idle_counter ≤ 500)) := by
  obtain ⟨n, c, hc, hcn, hn, _, hexit⟩ := cycle_run polls s
  rw [COLLECT_FUEL_eq] at hc hn
  refine ⟨n, c, hc, hcn, by omega, ?_, hexit, ?_⟩
  · rw [hcn]
    exact iterate_collectStep_polled polls n (cycleStart s)
  · intro t g
    obtain ⟨hi, hr⟩ := (collectGuard_iff t).mp g
    cases hp : polls t.polled with
    | none =>
      right
      rw [collectStep_none polls t hp]
      exact ⟨rfl, rfl, by simp only; omega⟩
    | some b =>
      left
      rw [collectStep_some polls t b hp]
      exact ⟨rfl, by simp only; omega, rfl⟩

/-! ## Several cycles -/

theorem report_polled (c : State) : (report c).polled = c.polled := by
  unfold report
  split <;> rfl

theorem received_append (polls : Nat → Option Nat) (p m n : Nat) :
    received polls p (m + n) = received polls p m ++ received polls (p + m) n := by
  induction n with
  | zero => simp [received]
  | succ n ih =>
    cases hp : polls (p + (m + n)) with
    | none =>
      rw [← Nat.add_assoc, received_succ_none polls p (m + n) hp, ih,
        received_succ_none polls (p + m) n (by rw [Nat.add_assoc]; exact hp)]
    | some b =>
      rw [← Nat.add_assoc, received_succ_some polls p (m + n) b hp, ih,
        received_succ_some polls (p + m) n b (by rw [Nat.add_assoc]; exact hp),
        List.append_assoc]

theorem mainLoop_succ (polls : Nat → Option Nat) (n : Nat) (s s1 : State)
    (h : mainCycle polls s = some s1) : mainLoop polls (n + 1) s = mainLoop polls n s1 := by
  simp [mainLoop, h]

theorem framesOf_succ (polls : Nat → Option Nat) (n : Nat) (s s1 : State) (F : List Nat)
    (hF : cycleFrame polls s = some F) (h : mainCycle polls s = some s1) :
    framesOf polls (n + 1) s = (framesOf polls n s1).map (fun Fs => F :: Fs) := by
  simp [framesOf, hF, h]

/-- The frames of `n` cycles, concatenated, are the bytes received during these cycles. -/
theorem frames_flatten (polls : Nat → Option Nat) (hb : ∀ k b, polls k = some b → b < 256)
    (n : Nat) (s : State) :
    ∃ s' Fs, mainLoop polls n s = some s' ∧ framesOf polls n s = some Fs ∧ Fs.length = n ∧
      s.polled ≤ s'.polled ∧
      Fs.flatten = received polls s.polled (s'.polled - s.polled) := by
  induction n generalizing s with
  | zero => exact ⟨s, [], rfl, rfl, rfl, Nat.le_refl _, by simp [received]⟩
  | succ n ih =>
    obtain ⟨c, hc⟩ := cycle_collect_terminates polls s
    obtain ⟨inv, _⟩ := collectInv_exit polls hb s c hc
    obtain ⟨hm, hf, _⟩ := cycle_of_collect polls s c hc
    obtain ⟨s', Fs, hl, hfr, hlen, hle, hflat⟩ := ih (report c)
    rw [report_polled] at hle hflat
    have hsc := inv.start_le
    refine ⟨s', frame c :: Fs, ?_, ?_, by simp [hlen], by omega, ?_⟩
    · rw [mainLoop_succ polls n s _ hm, hl]
    · rw [framesOf_succ polls n s _ _ hf hm, hfr]
      rfl
    · have e : s'.polled - s.polled = (c.polled - s.polled) + (s'.polled - c.polled) := by omega
      have e2 : s.polled + (c.polled - s.polled) = c.polled := by omega
      rw [List.flatten_cons, hflat, inv.frame_eq, e, received_append, e2]

/-- C18: over any number of consecutive cycles run against one byte-valued stream of poll
results, the frames collected, concatenated in cycle order, are exactly the bytes returned by
the successful polls consumed so far, in order: no byte is dropped, duplicated or reordered
across cycle boundaries. -/
theorem frames_concat_eq_received (polls : Nat → Option Nat)
    (hb : ∀ k b, polls k = some b → b < 256) (n : Nat) (s : State) :
    ∃ s' Fs, mainLoop polls n s = some s' ∧ framesOf polls n s = some Fs ∧ Fs.length = n ∧
      s.polled ≤ s'.polled ∧
      Fs.flatten = received polls s.polled (s'.polled - s.polled) :=
  frames_flatten polls hb n s

theorem pollCount_replicate (n b : Nat) : pollCount (List.replicate n (0, b)) = n := by
  induction n with
  | zero => rfl
  | succ n ih =>
    rw [List.replicate_succ, pollCount, ih]
    omega

theorem collect_full (polls : Nat → Option Nat) (s : State) (gbs : List (Nat × Nat))
    (hlen : gbs.length = 4096) (hgap : ∀ gb ∈ gbs, gb.1 < 500)
    (hd : deliversFrom polls s.polled gbs) :
    ∃ t, collectLoop polls COLLECT_FUEL (cycleStart s) = some t ∧
      frame t = gbs.map (fun gb => gb.2 % 256) ∧ t.polled = s.polled + pollCount gbs := by
  have hcount := pollCount_le gbs hgap
  obtain ⟨t, ht, hf, hr, _, hp⟩ := collect_arrivals polls gbs (COLLECT_FUEL - pollCount gbs)
    (cycleStart s) hd hgap rfl (by rw [hlen]; simp [cycleStart])
  have efuel : COLLECT_FUEL - pollCount gbs + pollCount gbs = COLLECT_FUEL := by
    rw [COLLECT_FUEL_eq]
    omega
  have hr' : t.rx_count = 4096 := by
    rw [hr, hlen]
    simp [cycleStart]
  rw [efuel, collectLoop_exit polls _ t ((collectGuard_false_iff t).mpr (Or.inr (by omega)))]
    at ht
  exact ⟨t, ht, by rw [hf, frame_cycleStart, List.nil_append], hp⟩

theorem collect_then_silence (polls : Nat → Option Nat) (s : State) (gbs : List (Nat × Nat))
    (hlen : gbs.length < 4096) (hgap : ∀ gb ∈ gbs, gb.1 < 500)
    (hd : deliversFrom polls s.polled gbs)
    (hs : ∀ j, j < 500 → polls (s.polled + pollCount gbs + j) = none) :
    ∃ t, collectLoop polls COLLECT_FUEL (cycleStart s) = some t ∧
      frame t = gbs.map (fun gb => gb.2 % 256) ∧
      t.polled = s.polled + pollCount gbs + 500 := by
  have hcount := pollCount_le gbs hgap
  obtain ⟨t, ht, hf, hr, hidle, hp⟩ := collect_arrivals polls gbs
    (COLLECT_FUEL - pollCount gbs - 500 + 500) (cycleStart s) hd hgap rfl
    (by simp only [cycleStart]; omega)
  have efuel : COLLECT_FUEL - pollCount gbs - 500 + 500 + pollCount gbs = COLLECT_FUEL := by
    rw [COLLECT_FUEL_eq]
    omega
  have hp' : t.polled = s.polled + pollCount gbs := hp
  have hrx : t.rx_count < 4096 := by
    rw [hr]
    simp only [cycleStart]
    omega
  rw [efuel, collectLoop_idle_run polls 500 _ t (by rw [hp']; exact hs) (by omega) hrx,
    collectLoop_exit polls _ (idleBy t 500)
      ((collectGuard_false_iff _).mpr (Or.inl (by simp only [idleBy]; omega)))] at ht
  refine ⟨_, ht, ?_, ?_⟩
  · rw [frame_idleBy, hf, frame_cycleStart, List.nil_append]
  · simp only [idleBy]
    omega

theorem polls5000_bytes : ∀ k b, polls5000 k = some b → b < 256 := by
  intro k b h
  unfold polls5000 at h
  split at h
  · cases h
    decide
  · cases h

/-- A burst of 5000 bytes followed by silence is collected as a 4096-byte frame and then a
904-byte frame. -/
theorem polls5000_frames :
    framesOf polls5000 2 (mainInit [])
      = some [List.replicate 4096 0x41, List.replicate 904 0x41] := by
  obtain ⟨t1, h1, hf1, hp1⟩ := collect_full polls5000 (mainInit [])
    (List.replicate 4096 (0, 0x41)) (List.length_replicate _ _)
    (fun gb h => by rw [List.eq_of_mem_replicate h]; decide)
    (polls5000_delivers 4096 0 (by decide))
  rw [pollCount_replicate] at hp1
  have hp1' : (report t1).polled = 4096 := by
    rw [report_polled, hp1]
    rfl
  obtain ⟨t2, h2, hf2, _⟩ := collect_then_silence polls5000 (report t1)
    (List.replicate 904 (0, 0x41)) (by rw [List.length_replicate]; decide)
    (fun gb h => by rw [List.eq_of_mem_replicate h]; decide)
    (by rw [hp1']; exact polls5000_delivers 904 4096 (by decide))
    (by
      intro j _
      rw [hp1', pollCount_replicate]
      have : ¬ 4096 + 904 + j < 5000 := by omega
      simp [polls5000, this])
  obtain ⟨m1, c1, _⟩ := cycle_of_collect polls5000 _ t1 h1
  obtain ⟨m2, c2, _⟩ := cycle_of_collect polls5000 _ t2 h2
  have e1 : List.map (fun gb : Nat × Nat => gb.2 % 256) (List.replicate 4096 (0, 0x41))
      = List.replicate 4096 0x41 := by
    rw [List.map_replicate]
    exact congrArg (List.replicate 4096) (by decide)
  have e2 : List.map (fun gb : Nat × Nat => gb.2 % 256) (List.replicate 904 (0, 0x41))
      = List.replicate 904 0x41 := by
    rw [List.map_replicate]
    exact congrArg (List.replicate 904) (by decide)
  rw [framesOf_succ polls5000 1 _ _ _ c1 m1, framesOf_succ polls5000 0 _ _ _ c2 m2, hf1, hf2,
    e1, e2]
  rfl

theorem frames_concat_eq_received_witness :
    (∀ k b, polls5000 k = some b → b < 256) ∧
    framesOf polls5000 2 (mainInit [])
      = some [List.replicate 4096 0x41, List.replicate 904 0x41] ∧
    ∃ s' Fs, mainLoop polls5000 2 (mainInit []) = some s' ∧
      framesOf polls5000 2 (mainInit []) = some Fs ∧ Fs.length = 2 ∧
      (mainInit []).polled ≤ s'.polled ∧
      Fs.flatten = received polls5000 (mainInit []).polled (s'.polled - (mainInit []).polled) :=
  ⟨polls5000_bytes, polls5000_frames,
    frames_concat_eq_received polls5000 polls5000_bytes 2 (mainInit [])⟩

/-! ## The format buffer across cycles -/

theorem cycle_calls (polls : Nat → Option Nat) (s c : State)
    (hc : collectLoop polls COLLECT_FUEL (cycleStart s) = some c) :
    (report c).crc_calls = s.crc_calls ++ [frame c].filter (fun G => decide (G ≠ [])) := by
  obtain ⟨_, _, _, _, _, hcalls⟩ := cycle_of_collect polls s c hc
  by_cases h : c.rx_count = 0
  · have hnil : frame c = [] := (frame_eq_nil_iff c).mpr h
    rw [(report_empty c h).2.2.1, hcalls, hnil]
    simp
  · have hne : frame c ≠ [] := fun h0 => h ((frame_eq_nil_iff c).mp h0)
    rw [(report_nonempty c (by omega)).2.2.1, hcalls]
    simp [hne]

theorem cycle_bufferTracksCrc (polls : Nat → Option Nat) (s c : State)
    (hc : collectLoop polls COLLECT_FUEL (cycleStart s) = some c) (hs : bufferTracksCrc s) :
    bufferTracksCrc (report c) := by
  obtain ⟨_, _, hv, hbuf, _, hcalls⟩ := cycle_of_collect polls s c hc
  intro F hF
  by_cases h : c.rx_count = 0
  · obtain ⟨r1, r2, r3, _⟩ := report_empty c h
    rw [r3, hcalls] at hF
    rw [r1, r2, hv, hbuf]
    exact hs F hF
  · obtain ⟨r1, r2, r3, _⟩ := report_nonempty c (by omega)
    rw [r3, List.getLast?_concat] at hF
    cases hF
    exact ⟨r1, r2⟩

theorem loop_bufferTracksCrc (polls : Nat → Option Nat) (n : Nat) (s s' : State)
    (hs : bufferTracksCrc s) (hl : mainLoop polls n s = some s') : bufferTracksCrc s' := by
  induction n generalizing s with
  | zero =>
    cases hl
    exact hs
  | succ n ih =>
    obtain ⟨c, hc⟩ := cycle_collect_terminates polls s
    rw [mainLoop_succ polls n s _ (cycle_of_collect polls s c hc).1] at hl
    exact ih _ (cycle_bufferTracksCrc polls s c hc hs) hl

theorem loop_calls (polls : Nat → Option Nat) (n : Nat) (s s' : State)
    (Fs : List (List Nat)) (hl : mainLoop polls n s = some s')
    (hf : framesOf polls n s = some Fs) :
    s'.crc_calls = s.crc_calls ++ Fs.filter (fun G => decide (G ≠ [])) := by
  induction n generalizing s Fs with
  | zero =>
    cases hl
    cases hf
    simp
  | succ n ih =>
    obtain ⟨c, hc⟩ := cycle_collect_terminates polls s
    obtain ⟨hm, hcf, _⟩ := cycle_of_collect polls s c hc
    rw [mainLoop_succ polls n s _ hm] at hl
    rw [framesOf_succ polls n s _ _ hcf hm, Option.map_eq_some'] at hf
    obtain ⟨Fs', hFs', rfl⟩ := hf
    rw [ih _ Fs' hl hFs', cycle_calls polls s c hc, List.append_assoc, ← List.filter_append]
    rfl

theorem bufferTracksCrc_mainInit (stack : List Char) : bufferTracksCrc (mainInit stack) := by
  intro F hF
  simp [mainInit] at hF

/-- C17: a cycle with a non-empty frame leaves in `crc_formatBuffer` exactly the eight
upper-case hex digits of the new `crc_value` and the terminator; in every state reached from
the start of `main` after at least one such cycle the buffer holds the digits of the current
`crc_value`, which is the CRC of the most recent non-empty frame, and a following cycle with
an empty frame reports these digits. -/
theorem format_buffer_tracks_last_crc (polls : Nat → Option Nat) :
    (∀ s F, cycleFrame polls s = some F → F ≠ [] →
      ∃ s', mainCycle polls s = some s' ∧ s'.crc_value = calc_crc32 F ∧
        s'.crc_formatBuffer = hex8 s'.crc_value ++ [NUL]) ∧
    (∀ stack n s Fs F, mainLoop polls n (mainInit stack) = some s →
      framesOf polls n (mainInit stack) = some Fs →
      (Fs.filter (fun G => decide (G ≠ []))).getLast? = some F →
      s.crc_value = calc_crc32 F ∧ s.crc_formatBuffer = hex8 s.crc_value ++ [NUL] ∧
      (cycleFrame polls s = some [] →
        ∃ s', mainCycle polls s = some s' ∧
          s'.sent = s.sent ++ "UART Ready. Send data...\r\n".toList
            ++ ("No Data Received, Last Calculated CRC in Hex is : 0x".toList
              ++ hex8 (calc_crc32 F) ++ "\r\n".toList) ∧
          s'.crc_value = s.crc_value ∧ s'.crc_formatBuffer = s.crc_formatBuffer)) := by
  constructor
  · intro s F hF hne
    obtain ⟨c, hc, rfl⟩ := collect_of_cycleFrame polls s F hF
    have hpos : 0 < c.rx_count := by
      have := (frame_eq_nil_iff c).not.mp hne
      omega
    obtain ⟨r1, r2, _, _⟩ := report_nonempty c hpos
    refine ⟨report c, (cycle_of_collect polls s c hc).1, r1, ?_⟩
    rw [r2, r1]
    rfl
  · intro stack n s Fs F hl hf hlast
    have hcalls := loop_calls polls n _ s Fs hl hf
    have htrack := loop_bufferTracksCrc polls n _ s (bufferTracksCrc_mainInit stack) hl
    have hF : s.crc_calls.getLast? = some F := by
      rw [hcalls]
      simpa [mainInit] using hlast
    obtain ⟨hv, hbuf⟩ := htrack F hF
    refine ⟨hv, by rw [hbuf, hv]; rfl, ?_⟩
    intro hempty
    obtain ⟨c, hc, hnil⟩ := collect_of_cycleFrame polls s [] hempty
    obtain ⟨hm, _, hcv, hcb, hsent, _⟩ := cycle_of_collect polls s c hc
    obtain ⟨r1, r2, _, r4⟩ := report_empty c ((frame_eq_nil_iff c).mp hnil)
    refine ⟨report c, hm, ?_, r1.trans hcv, r2.trans hcb⟩
    have hshow : c.crc_formatBuffer.take (strlen c.crc_formatBuffer) = hex8 (calc_crc32 F) := by
      have := sciDisplayText_sprintf [] (calc_crc32 F)
      rw [sciDisplayText_eq, List.nil_append, List.nil_append] at this
      rw [hcb, hbuf]
      exact this
    rw [r4, hshow, hsent]
    simp only [List.append_assoc]

theorem format_buffer_tracks_last_crc_witness :
    ∃ s s', mainLoop pollsA 1 (mainInit []) = some s ∧ mainCycle pollsA s = some s' ∧
      s.crc_formatBuffer = hex8 s.crc_value ++ [NUL] ∧
      s'.sent = s.sent ++ "UART Ready. Send data...\r\n".toList
        ++ ("No Data Received, Last Calculated CRC in Hex is : 0x".toList
          ++ "D3D99E8B".toList ++ "\r\n".toList) := by
  obtain ⟨s, _, hs1, _⟩ := mainCycle_returns pollsA (mainInit [])
  have hs : mainLoop pollsA 1 (mainInit []) = some s := by
    rw [mainLoop_succ pollsA 0 _ s hs1]
    rfl
  have hfr : framesOf pollsA 1 (mainInit []) = some [[0x41]] := by decide
  have hpolled : s.polled = 501 := by
    have h : (mainCycle pollsA (mainInit [])).map State.polled = some 501 := by decide
    rw [hs1] at h
    simpa using h
  have hempty : cycleFrame pollsA s = some [] := by
    have hc := collect_silence pollsA s (fun j _ => by rw [hpolled]; simp [pollsA])
    rw [(cycle_of_collect _ _ _ hc).2.1, frame_idleBy, frame_cycleStart]
  obtain ⟨_, hbuf, hrep⟩ :=
    (format_buffer_tracks_last_crc pollsA).2 [] 1 s [[0x41]] [0x41] hs hfr (by decide)
  obtain ⟨s', hm, hsent, _⟩ := hrep hempty
  have hdigits : hex8 (calc_crc32 [0x41]) = "D3D99E8B".toList := by decide
  exact ⟨s, s', hs, hm, hbuf, by rw [hsent, hdigits]⟩

end UartCrc
